import Mathlib

/-!
# TZSP packet decoder (`tzsp.go`)

A shallow embedding of `Parse`, `parseHeader` and `parseTag` of the Go package
`tzsp` and of the generated `TagType.String`, together with the properties of
the decoder.

Conventions of the embedding:

* a Go `byte`/`uint8` is a `Fin 256`; arithmetic is done on the underlying
  natural number with an explicit reduction modulo `2^8` where Go computes in
  `uint8`;
* a Go slice result that may be `nil` is an `Option (List _)`, `none` being the
  `nil` slice and `some []` an empty, non-nil slice;
* a Go `error` result is an `Option Error`, `none` being `nil`;
* a Go function call has an `Outcome`: it returns its results, or it stops with
  a run-time panic (index or slice bounds out of range).
-/

namespace Tzsp

/-- A Go `byte` (`uint8`). -/
abbrev Byte := Fin 256

/-- Conversion of an integer to `uint8`: the value modulo `2^8`. -/
def uint8 (n : Nat) : Byte := ⟨n % 256, Nat.mod_lt n (by decide)⟩

/-- Conversion of an integer to `uint16`: the value modulo `2^16`. -/
def uint16 (n : Nat) : Fin 65536 := ⟨n % 65536, Nat.mod_lt n (by decide)⟩

/-- How a call ends: `ret a` when it returns the results `a`, `panic` when an
index or slice expression is out of range, `outOfFuel` when the iteration budget
of the embedding of a loop is used up (shown below never to happen). -/
inductive Outcome (α : Type) where
  | ret (a : α)
  | panic
  | outOfFuel
  deriving DecidableEq, Repr

namespace Outcome

/-- Sequencing of calls: a panic (or an exhausted budget) propagates. -/
def bind {α β : Type} (x : Outcome α) (f : α → Outcome β) : Outcome β :=
  match x with
  | ret a => f a
  | panic => panic
  | outOfFuel => outOfFuel

instance : Monad Outcome where
  pure := ret
  bind := bind

end Outcome

/-- The five error values declared by the package. -/
inductive Error where
  | ErrHeaderTooShort
  | ErrUnsupportedVersion
  | ErrUnsupportedPacketType
  | ErrTruncatedTag
  | ErrMissingEndTag
  deriving DecidableEq, Repr

open Error

/-- Header is the TZSP packet header (`Type` is `Type_` here). -/
structure Header where
  Version : Byte
  Type_ : Byte
  Proto : Fin 65536
  deriving DecidableEq, Repr

/-- Tag is a TZSP packet tag. -/
structure Tag where
  Type_ : Byte
  Length : Byte
  Data : Option (List Byte)
  deriving DecidableEq, Repr

/-- Packet is a TZSP packet content. -/
structure Packet where
  Header : Header
  Tags : Option (List Tag)
  Data : Option (List Byte)
  deriving DecidableEq, Repr

/-- The zero value of `Header`. -/
def Header.zero : Header := { Version := 0, Type_ := 0, Proto := 0 }

/-- The zero value of `Tag` (the value of `var t Tag`). -/
def Tag.zero : Tag := { Type_ := 0, Length := 0, Data := none }

/-- The zero value of `Packet`. -/
def Packet.zero : Packet := { Header := Header.zero, Tags := none, Data := none }

/-- TypeReceivedTagList is received tag list. -/
def TypeReceivedTagList : Byte := 0

/-- TagPadding is a special tagged field which has neither tag length nor any tag data. -/
def TagPadding : Byte := 0x00

/-- TagEnd is a special tagged field which has neither tag length nor any tag data;
it means that there are no more tags. -/
def TagEnd : Byte := 0x01

/-- Length of the header in bytes. -/
def headerLen : Nat := 4

/-- Index expression `b[i]`: panics when `i` is not below `len(b)`. -/
def index (b : List Byte) (i : Nat) : Outcome Byte :=
  match b.get? i with
  | some x => .ret x
  | none => .panic

/-- Slice expression `b[lo:hi]`: panics unless `lo <= hi <= len(b)`.
(Go checks `hi` against the capacity; every use below is guarded by
`hi <= len(b)`, so the capacity is never what decides.) -/
def slice (b : List Byte) (lo hi : Nat) : Outcome (List Byte) :=
  if lo ≤ hi ∧ hi ≤ b.length then .ret ((b.take hi).drop lo) else .panic

/-- Slice expression `b[lo:]`: panics unless `lo <= len(b)`. -/
def sliceFrom (b : List Byte) (lo : Nat) : Outcome (List Byte) :=
  if lo ≤ b.length then .ret (b.drop lo) else .panic

/-- The function `binary.BigEndian.Uint16`: reads `b[1]` (low byte) and `b[0]`
(high byte) and returns `uint16(b[1]) | uint16(b[0])<<8`. -/
def bigEndianUint16 (b : List Byte) : Outcome (Fin 65536) := do
  let lo ← index b 1
  let hi ← index b 0
  pure (uint16 (256 * hi.val + lo.val))

/-- The function `parseHeader`. -/
def parseHeader (b : List Byte) : Outcome (Header × Option Error) :=
  if b.length < headerLen then
    pure (Header.zero, some ErrHeaderTooShort)
  else do
    let v ← index b 0
    let ty ← index b 1
    let s ← slice b 2 4
    let pr ← bigEndianUint16 s
    pure ({ Version := v, Type_ := ty, Proto := pr }, none)

/-- The function `parseTag`; the results are the tag, the consumed length `l`
and the error. `l = int(t.Length + 2)` adds in `uint8` and converts after. -/
def parseTag (b : List Byte) : Outcome (Tag × Nat × Option Error) := do
  let ty ← index b 0
  let t : Tag := { Type_ := ty, Length := 0, Data := none }
  if ty = TagPadding ∨ ty = TagEnd then
    pure (t, 1, none)
  else if b.length < 2 then
    pure (t, 0, some ErrTruncatedTag)
  else do
    let n ← index b 1
    let t : Tag := { t with Length := n }
    let l : Nat := (uint8 (n.val + 2)).val
    if b.length < l then
      pure (t, 0, some ErrTruncatedTag)
    else do
      let d ← slice b 2 l
      pure ({ t with Data := some d }, l, none)

/-- The built-in `append(tags, t)`: the result is never `nil`. -/
def appendTag (tags : Option (List Tag)) (t : Tag) : Option (List Tag) :=
  some (tags.getD [] ++ [t])

/-- The `for len(b) > 0 && t.Type != TagEnd` loop of `Parse` with what follows
it, as a function of the loop variables `p`, `t`, `b`; one unit of fuel is one
iteration. -/
def tagLoop : Nat → Packet → Tag → List Byte → Outcome (Packet × Option Error)
  | fuel, p, t, b =>
    if 0 < b.length ∧ t.Type_ ≠ TagEnd then
      match fuel with
      | 0 => .outOfFuel
      | fuel + 1 =>
        match parseTag b with
        | .ret (t1, l, err) =>
          if err ≠ none then
            .ret (p, err)
          else
            match sliceFrom b l with
            | .ret b1 => tagLoop fuel { p with Tags := appendTag p.Tags t1 } t1 b1
            | .panic => .panic
            | .outOfFuel => .outOfFuel
        | .panic => .panic
        | .outOfFuel => .outOfFuel
    else if t.Type_ ≠ TagEnd then
      .ret (p, some ErrMissingEndTag)
    else
      .ret ({ p with Data := some b }, none)

/-- Parse reads a packet bytes and parse the contained TZSP packet. The loop
gets one unit of fuel for each byte after the header. -/
def Parse (b : List Byte) : Outcome (Packet × Option Error) := do
  let (h, err) ← parseHeader b
  let p : Packet := { Header := h, Tags := none, Data := none }
  if err ≠ none then
    pure (p, err)
  else if p.Header.Version ≠ 1 then
    pure (p, some ErrUnsupportedVersion)
  else if p.Header.Type_ ≠ TypeReceivedTagList then
    pure (p, some ErrUnsupportedPacketType)
  else do
    let b ← sliceFrom b headerLen
    let p : Packet := { p with Tags := some [] }
    tagLoop b.length p Tag.zero b

/-! ## The wire encoding, as the specification describes it -/

/-- Wire form of one tag: `Padding` and `End` occupy the type byte alone, any
other tag is its type byte, its length byte and its data bytes. -/
def encodeTag (t : Tag) : List Byte :=
  if t.Type_ = TagPadding ∨ t.Type_ = TagEnd then [t.Type_]
  else [t.Type_, t.Length] ++ t.Data.getD []

/-- Wire form of a tag sequence, in order. -/
def encodeTags : List Tag → List Byte
  | [] => []
  | t :: ts => encodeTag t ++ encodeTags ts

/-- Wire form of the header: version, type, protocol high byte, protocol low byte. -/
def encodeHeader (h : Header) : List Byte :=
  [h.Version, h.Type_, uint8 (h.Proto.val / 256), uint8 (h.Proto.val % 256)]

/-- Wire form of a packet: header, tags, trailing data. -/
def encodePacket (p : Packet) : List Byte :=
  encodeHeader p.Header ++ encodeTags (p.Tags.getD []) ++ p.Data.getD []

/-- The `Padding` tag as `parseTag` returns it. -/
def paddingTag : Tag := { Type_ := TagPadding, Length := 0, Data := none }

/-- The `End` tag as `parseTag` returns it. -/
def endTag : Tag := { Type_ := TagEnd, Length := 0, Data := none }

/-- Shape of a tag: `Length` is the number of data bytes, and a `Padding` or
`End` tag has `Length` 0 and `nil` data. -/
def Tag.Shaped (t : Tag) : Prop :=
  t.Length.val = (t.Data.getD []).length ∧
    (t.Type_ = TagPadding ∨ t.Type_ = TagEnd → t.Length = 0 ∧ t.Data = none)

/-- A tag as it can stand on the wire before the `End` tag: the `Padding` tag,
or a length-prefixed tag whose type is neither `Padding` nor `End` and whose
`Length` is the number of its data bytes. -/
def Tag.Wire (t : Tag) : Prop :=
  t = paddingTag ∨
    (t.Type_ ≠ TagPadding ∧ t.Type_ ≠ TagEnd ∧ ∃ d, t.Data = some d ∧ d.length = t.Length.val)

/-- Value of the loop variable `t` after the tags `ts` have been parsed: the
last of them, or the previous value when there is none. -/
def lastTag : Tag → List Tag → Tag
  | t, [] => t
  | _, x :: xs => lastTag x xs

/-- The result of a `parseTag` call with the `Type` of the returned tag replaced
by `ty`, everything else (panic or return, consumed length, error, `Length`,
`Data`) kept. -/
def retype (ty : Byte) (x : Outcome (Tag × Nat × Option Error)) :
    Outcome (Tag × Nat × Option Error) :=
  match x with
  | .ret (t, l, e) => .ret ({ t with Type_ := ty }, l, e)
  | .panic => .panic
  | .outOfFuel => .outOfFuel

/-! ## The generated `TagType.String` (`tagtype_string.go`) -/

/-! The name constants and the index tables, as generated by `stringer`. -/

def _TagType_name_0 : String := "TagPaddingTagEnd"
def _TagType_name_1 : String := "TagRawRSSITagSNRTagDataRateTagTimestamp"
def _TagType_name_2 : String := "TagContentionFreeTagDecryptedTagFCSErrorTagRXChannel"
def _TagType_name_3 : String := "TagPacketCountTagRXFrameLength"
def _TagType_name_4 : String := "TagWLANRadioHDRSerial"

def _TagType_index_0 : List Nat := [0, 10, 16]
def _TagType_index_1 : List Nat := [0, 10, 16, 27, 39]
def _TagType_index_2 : List Nat := [0, 17, 29, 40, 52]
def _TagType_index_3 : List Nat := [0, 14, 30]
def _TagType_index_4 : List Nat := [0, 21]

/-- Index expression `tbl[i]` on an index table: panics when `i` is not below
the number of entries. -/
def tableIndex (tbl : List Nat) (i : Nat) : Outcome Nat :=
  match tbl.get? i with
  | some x => .ret x
  | none => .panic

/-- Slice expression `s[lo:hi]` on a string of one-byte characters: panics unless
`lo <= hi <= len(s)`. -/
def stringSlice (s : String) (lo hi : Nat) : Outcome String :=
  if lo ≤ hi ∧ hi ≤ s.data.length then .ret ⟨(s.data.take hi).drop lo⟩ else .panic

/-- The expression `name[tbl[i]:tbl[i+1]]`, with `i + 1` computed in `uint8`. -/
def nameAt (name : String) (tbl : List Nat) (i : Byte) : Outcome String :=
  match tableIndex tbl i.val with
  | .ret lo =>
    match tableIndex tbl (uint8 (i.val + 1)).val with
    | .ret hi => stringSlice name lo hi
    | .panic => .panic
    | .outOfFuel => .outOfFuel
  | .panic => .panic
  | .outOfFuel => .outOfFuel

/-- The call `fmt.Sprintf("TagType(%d)", i)`: the value of `i` in decimal between
`TagType(` and `)`. -/
def sprintfTagType (i : Byte) : String := "TagType(" ++ Nat.repr i.val ++ ")"

/-- The method `TagType.String`; `i -= k` subtracts in `uint8`. -/
def TagType.String (i : Byte) : Outcome String :=
  if 0 ≤ i.val ∧ i.val ≤ 1 then
    nameAt _TagType_name_0 _TagType_index_0 i
  else if 10 ≤ i.val ∧ i.val ≤ 13 then
    nameAt _TagType_name_1 _TagType_index_1 (uint8 (i.val + 256 - 10))
  else if 15 ≤ i.val ∧ i.val ≤ 18 then
    nameAt _TagType_name_2 _TagType_index_2 (uint8 (i.val + 256 - 15))
  else if 40 ≤ i.val ∧ i.val ≤ 41 then
    nameAt _TagType_name_3 _TagType_index_3 (uint8 (i.val + 256 - 40))
  else if i.val = 60 then
    .ret _TagType_name_4
  else
    .ret (sprintfTagType i)

/-- The name of a tag type as the specification gives it: the symbolic name of
each of the 13 known values, and `TagType(v)` with `v` in decimal for any other. -/
def specTagTypeName (v : Byte) : String :=
  match v.val with
  | 0x00 => "TagPadding"
  | 0x01 => "TagEnd"
  | 0x0a => "TagRawRSSI"
  | 0x0b => "TagSNR"
  | 0x0c => "TagDataRate"
  | 0x0d => "TagTimestamp"
  | 0x0f => "TagContentionFree"
  | 0x10 => "TagDecrypted"
  | 0x11 => "TagFCSError"
  | 0x12 => "TagRXChannel"
  | 0x28 => "TagPacketCount"
  | 0x29 => "TagRXFrameLength"
  | 0x3c => "TagWLANRadioHDRSerial"
  | n => "TagType(" ++ Nat.repr n ++ ")"

/-- The 13 known tag type values. -/
def knownTagValues : List Nat :=
  [0x00, 0x01, 0x0a, 0x0b, 0x0c, 0x0d, 0x0f, 0x10, 0x11, 0x12, 0x28, 0x29, 0x3c]

/-! ## Concrete tags and packets used as examples -/

/-- The packet returned with `ErrTruncatedTag` on `01 00 00 01 00 0a 01 02 0b 03 09`. -/
def truncatedPacket : Packet :=
  { Header := { Version := 1, Type_ := 0, Proto := 1 },
    Tags := some [paddingTag, { Type_ := 0x0a, Length := 1, Data := some [2] }],
    Data := none }


/-- A well-formed length-prefixed tag with 254 data bytes. -/
def longTag : Tag := { Type_ := 0x0a, Length := 254, Data := some (List.replicate 254 0) }

/-- The packet of the test case "valid packet". -/
def validPacket : Packet :=
  { Header := { Version := 1, Type_ := 0, Proto := 1 },
    Tags := some [{ Type_ := 0x0a, Length := 1, Data := some [2] }, endTag],
    Data := some [1, 2, 3] }

/-- A decoded packet with a length-prefixed tag, a `Padding` tag and the `End` tag. -/
def paddedPacket : Packet :=
  { Header := { Version := 1, Type_ := 0, Proto := 1 },
    Tags := some [{ Type_ := 0x0a, Length := 1, Data := some [2] }, paddingTag, endTag],
    Data := some [1, 2, 3] }

/-- A decoded packet whose trailing data itself starts with an `End` byte. -/
def trailingEndPacket : Packet :=
  { Header := { Version := 1, Type_ := 0, Proto := 0x12 },
    Tags := some [paddingTag, { Type_ := 0x3c, Length := 2, Data := some [7, 1] }, endTag],
    Data := some [1, 0, 9] }

/-! ## Evaluation of the sequencing and of the slice primitives -/

@[simp] theorem Outcome.ret_bind {α β : Type} (a : α) (f : α → Outcome β) :
    (Outcome.ret a >>= f) = f a := rfl

@[simp] theorem Outcome.panic_bind {α β : Type} (f : α → Outcome β) :
    ((Outcome.panic : Outcome α) >>= f) = Outcome.panic := rfl

@[simp] theorem Outcome.outOfFuel_bind {α β : Type} (f : α → Outcome β) :
    ((Outcome.outOfFuel : Outcome α) >>= f) = Outcome.outOfFuel := rfl

@[simp] theorem Outcome.pure_eq {α : Type} (a : α) :
    (pure a : Outcome α) = Outcome.ret a := rfl

@[simp] theorem index_nil (i : Nat) : index [] i = .panic := rfl

@[simp] theorem index_cons_zero (x : Byte) (r : List Byte) : index (x :: r) 0 = .ret x := rfl

@[simp] theorem index_cons_succ (x : Byte) (r : List Byte) (i : Nat) :
    index (x :: r) (i + 1) = index r i := rfl

theorem uint8_add_two (n : Byte) :
    (uint8 (n.val + 2)).val = if n.val < 254 then n.val + 2 else n.val - 254 := by
  have := n.isLt
  simp only [uint8]
  split <;> omega

/-! ## What `parseTag` does, case by case -/

theorem parseTag_nil : parseTag [] = .panic := rfl

theorem parseTag_padding (r : List Byte) :
    parseTag (0 :: r) = .ret ({ Type_ := 0, Length := 0, Data := none }, 1, none) := by
  simp [parseTag, TagPadding]

theorem parseTag_end (r : List Byte) :
    parseTag (1 :: r) = .ret ({ Type_ := 1, Length := 0, Data := none }, 1, none) := by
  simp [parseTag, TagEnd]

theorem parseTag_single (ty : Byte) (h0 : ty ≠ 0) (h1 : ty ≠ 1) :
    parseTag [ty] =
      .ret ({ Type_ := ty, Length := 0, Data := none }, 0, some ErrTruncatedTag) := by
  simp [parseTag, TagPadding, TagEnd, h0, h1]

theorem parseTag_long (ty n : Byte) (r : List Byte) (h0 : ty ≠ 0) (h1 : ty ≠ 1) :
    parseTag (ty :: n :: r) =
      if 254 ≤ n.val then .panic
      else if r.length < n.val then
        .ret ({ Type_ := ty, Length := n, Data := none }, 0, some ErrTruncatedTag)
      else
        .ret ({ Type_ := ty, Length := n, Data := some (r.take n.val) }, n.val + 2, none) := by
  have hn := n.isLt
  simp only [parseTag, index_cons_zero, index_cons_succ, Outcome.ret_bind, Outcome.pure_eq,
    TagPadding, TagEnd, h0, h1, or_self, if_false, List.length_cons, uint8_add_two]
  by_cases h254 : 254 ≤ n.val
  · have e1 : ¬ (n.val < 254) := by omega
    have e2 : ¬ (r.length + 1 + 1 < 2) := by omega
    have e3 : ¬ (r.length + 1 + 1 < n.val - 254) := by omega
    have e4 : ¬ (2 ≤ n.val - 254 ∧ n.val - 254 ≤ r.length + 1 + 1) := by omega
    simp only [e1, e2, e3, h254, if_true, if_false, slice, List.length_cons]
    rw [if_neg e4]
    rfl
  · have e1 : n.val < 254 := by omega
    have e2 : ¬ (r.length + 1 + 1 < 2) := by omega
    simp only [e1, e2, h254, if_true, if_false]
    by_cases hr : r.length < n.val
    · have e3 : r.length + 1 + 1 < n.val + 2 := by omega
      simp [e3, hr]
    · have e3 : ¬ (r.length + 1 + 1 < n.val + 2) := by omega
      have e4 : 2 ≤ n.val + 2 ∧ n.val + 2 ≤ r.length + 1 + 1 := by omega
      simp only [e3, hr, if_false, slice, List.length_cons]
      rw [if_pos e4]
      simp

/-! ## What `parseHeader` and `Parse` do before the tag loop -/

theorem uint16_bytes (hi lo : Byte) : (uint16 (256 * hi.val + lo.val)).val = 256 * hi.val + lo.val := by
  have h1 := hi.isLt
  have h2 := lo.isLt
  simp only [uint16]
  omega

theorem parseHeader_short (b : List Byte) (h : b.length < 4) :
    parseHeader b = .ret (Header.zero, some ErrHeaderTooShort) := by
  simp [parseHeader, headerLen, h]

theorem parseHeader_cons (v ty hi lo : Byte) (r : List Byte) :
    parseHeader (v :: ty :: hi :: lo :: r) =
      .ret ({ Version := v, Type_ := ty, Proto := uint16 (256 * hi.val + lo.val) }, none) := by
  simp [parseHeader, headerLen, slice, bigEndianUint16]

theorem Parse_short (b : List Byte) (h : b.length < 4) :
    Parse b = .ret (Packet.zero, some ErrHeaderTooShort) := by
  simp [Parse, parseHeader_short b h, Packet.zero]

theorem Parse_cons (v ty hi lo : Byte) (r : List Byte) :
    Parse (v :: ty :: hi :: lo :: r) =
      if v ≠ 1 then
        .ret ({ Header := { Version := v, Type_ := ty, Proto := uint16 (256 * hi.val + lo.val) },
                Tags := none, Data := none }, some ErrUnsupportedVersion)
      else if ty ≠ 0 then
        .ret ({ Header := { Version := v, Type_ := ty, Proto := uint16 (256 * hi.val + lo.val) },
                Tags := none, Data := none }, some ErrUnsupportedPacketType)
      else
        tagLoop r.length
          { Header := { Version := v, Type_ := ty, Proto := uint16 (256 * hi.val + lo.val) },
            Tags := some [], Data := none } Tag.zero r := by
  simp only [Parse, parseHeader_cons, Outcome.ret_bind, Outcome.pure_eq, TypeReceivedTagList]
  by_cases hv : v = 1
  · by_cases ht : ty = 0
    · simp [hv, ht, sliceFrom, headerLen]
    · simp [hv, ht]
  · simp [hv]

theorem exists_cons4_of_length {b : List Byte} (h : 4 ≤ b.length) :
    ∃ v ty hi lo r, b = v :: ty :: hi :: lo :: r := by
  match b, h with
  | v :: ty :: hi :: lo :: r, _ => exact ⟨v, ty, hi, lo, r, rfl⟩

/-! ## One iteration of the tag loop -/

theorem tagLoop_nil (fuel : Nat) (p : Packet) (t : Tag) :
    tagLoop fuel p t [] =
      if t.Type_ ≠ TagEnd then .ret (p, some ErrMissingEndTag)
      else .ret ({ p with Data := some [] }, none) := by
  unfold tagLoop
  simp

theorem tagLoop_after_end (fuel : Nat) (p : Packet) (t : Tag) (b : List Byte)
    (h : t.Type_ = TagEnd) :
    tagLoop fuel p t b = .ret ({ p with Data := some b }, none) := by
  unfold tagLoop
  simp [h]

theorem tagLoop_succ (fuel : Nat) (p : Packet) (t : Tag) (x : Byte) (r : List Byte)
    (h : t.Type_ ≠ TagEnd) :
    tagLoop (fuel + 1) p t (x :: r) =
      match parseTag (x :: r) with
      | .ret (t1, l, err) =>
        if err ≠ none then
          .ret (p, err)
        else
          match sliceFrom (x :: r) l with
          | .ret b1 => tagLoop fuel { p with Tags := appendTag p.Tags t1 } t1 b1
          | .panic => .panic
          | .outOfFuel => .outOfFuel
      | .panic => .panic
      | .outOfFuel => .outOfFuel := by
  rw [tagLoop]
  simp [h]

theorem tagLoop_zero_cons (p : Packet) (t : Tag) (x : Byte) (r : List Byte)
    (h : t.Type_ ≠ TagEnd) :
    tagLoop 0 p t (x :: r) = .outOfFuel := by
  rw [tagLoop]
  simp [h]

/-! ## A successful `parseTag` -/

theorem encodeTags_append (xs ys : List Tag) :
    encodeTags (xs ++ ys) = encodeTags xs ++ encodeTags ys := by
  induction xs with
  | nil => rfl
  | cons x xs ih => simp [encodeTags, ih]

/-- When `parseTag` returns without error, the consumed length `l` is at least 1
and at most `len(b)`, the first `l` bytes of `b` are the wire form of the tag,
and the tag has the right shape. -/
theorem parseTag_ok {b : List Byte} {t : Tag} {l : Nat}
    (h : parseTag b = .ret (t, l, none)) :
    1 ≤ l ∧ l ≤ b.length ∧ b = encodeTag t ++ b.drop l ∧ (encodeTag t).length = l ∧
      t.Shaped := by
  match b with
  | [] => simp [parseTag_nil] at h
  | x :: r =>
    by_cases h0 : x = 0
    · subst h0
      rw [parseTag_padding] at h
      simp only [Outcome.ret.injEq, Prod.mk.injEq] at h
      obtain ⟨rfl, rfl, _⟩ := h
      simp [encodeTag, Tag.Shaped, TagPadding]
    · by_cases h1 : x = 1
      · subst h1
        rw [parseTag_end] at h
        simp only [Outcome.ret.injEq, Prod.mk.injEq] at h
        obtain ⟨rfl, rfl, _⟩ := h
        simp [encodeTag, Tag.Shaped, TagEnd]
      · match r with
        | [] => simp [parseTag_single x h0 h1] at h
        | n :: r =>
          rw [parseTag_long x n r h0 h1] at h
          by_cases h254 : 254 ≤ n.val
          · simp [h254] at h
          · by_cases hr : r.length < n.val
            · simp [h254, hr] at h
            · simp only [h254, hr, if_false, Outcome.ret.injEq, Prod.mk.injEq] at h
              obtain ⟨rfl, rfl, _⟩ := h
              have hle : n.val ≤ r.length := by omega
              simp [encodeTag, Tag.Shaped, TagPadding, TagEnd, h0, h1, hle]

/-! ## The tag loop when it ends without error -/

theorem sliceFrom_of_le {b : List Byte} {l : Nat} (h : l ≤ b.length) :
    sliceFrom b l = .ret (b.drop l) := by
  simp [sliceFrom, h]

/-- Invariant of the loop on the successful path: the packet keeps its header,
the newly appended tags `ts` and the trailing data `d` re-encode the buffer the
loop started from, every new tag has the right shape, and the new tags are
non-`End` tags followed by one `End` tag (none at all when the loop is entered
after an `End` tag). -/
theorem tagLoop_ok (fuel : Nat) : ∀ (p : Packet) (t : Tag) (b : List Byte) (acc : List Tag)
    (q : Packet), p.Tags = some acc → tagLoop fuel p t b = .ret (q, none) →
    ∃ ts d, q = { Header := p.Header, Tags := some (acc ++ ts), Data := some d } ∧
      b = encodeTags ts ++ d ∧ (∀ x ∈ ts, x.Shaped) ∧
      ((t.Type_ = TagEnd ∧ ts = []) ∨
        (t.Type_ ≠ TagEnd ∧ ∃ front, ts = front ++ [endTag] ∧ ∀ x ∈ front, x.Type_ ≠ TagEnd)) := by
  induction fuel with
  | zero =>
    intro p t b acc q hacc h
    by_cases hE : t.Type_ = TagEnd
    · rw [tagLoop_after_end _ _ _ _ hE] at h
      simp only [Outcome.ret.injEq, Prod.mk.injEq, and_true] at h
      exact ⟨[], b, by simp [← h, hacc], by simp [encodeTags], by simp, Or.inl ⟨hE, rfl⟩⟩
    · match b with
      | [] => simp [tagLoop_nil, hE] at h
      | x :: r => simp [tagLoop_zero_cons _ _ _ _ hE] at h
  | succ fuel ih =>
    intro p t b acc q hacc h
    by_cases hE : t.Type_ = TagEnd
    · rw [tagLoop_after_end _ _ _ _ hE] at h
      simp only [Outcome.ret.injEq, Prod.mk.injEq, and_true] at h
      exact ⟨[], b, by simp [← h, hacc], by simp [encodeTags], by simp, Or.inl ⟨hE, rfl⟩⟩
    · match b with
      | [] => simp [tagLoop_nil, hE] at h
      | x :: r =>
        rw [tagLoop_succ _ _ _ _ _ hE] at h
        match hp : parseTag (x :: r) with
        | .panic => simp [hp] at h
        | .outOfFuel => simp [hp] at h
        | .ret (t1, l, some e) => simp [hp] at h
        | .ret (t1, l, none) =>
          obtain ⟨hl1, hl2, henc, _, hshape⟩ := parseTag_ok hp
          simp only [hp, ne_eq, not_true_eq_false, if_false, sliceFrom_of_le hl2] at h
          obtain ⟨ts, d, hq, hb, hall, hlast⟩ :=
            ih _ t1 _ (acc ++ [t1]) q (by simp [appendTag, hacc]) h
          refine ⟨t1 :: ts, d, by simp [hq], ?_, ?_, Or.inr ⟨hE, ?_⟩⟩
          · rw [encodeTags, List.append_assoc, ← hb]
            exact henc
          · intro y hy
            rcases List.mem_cons.1 hy with rfl | hy
            · exact hshape
            · exact hall y hy
          · rcases hlast with ⟨hE1, rfl⟩ | ⟨hE1, front, rfl, hfront⟩
            · refine ⟨[], ?_, by simp⟩
              have h2 := hshape.2 (Or.inr hE1)
              obtain ⟨ty, len, dat⟩ := t1
              simp only at hE1 h2
              simp [endTag, hE1, h2.1, h2.2]
            · refine ⟨t1 :: front, by simp, ?_⟩
              intro y hy
              rcases List.mem_cons.1 hy with rfl | hy
              · exact hE1
              · exact hfront y hy

/-! ## Replaying the loop over complete tags -/

/-- One iteration over a complete tag whose length byte is below 254: the tag is
appended and the loop goes on with the bytes after it. -/
theorem tagLoop_wire_step (k : Nat) (p : Packet) (t x : Tag) (rest : List Byte)
    (ht : t.Type_ ≠ TagEnd) (hx : x.Wire) (hlen : x.Length.val < 254) :
    tagLoop (k + 1) p t (encodeTag x ++ rest) =
      tagLoop k { p with Tags := appendTag p.Tags x } x rest := by
  rcases hx with rfl | ⟨h0, h1, d, hd, hdl⟩
  · have e : encodeTag paddingTag ++ rest = 0 :: rest := by
      simp [encodeTag, paddingTag, TagPadding]
    rw [e, tagLoop_succ _ _ _ _ _ ht, parseTag_padding]
    simp [sliceFrom, paddingTag, TagPadding]
  · obtain ⟨ty, n, dat⟩ := x
    simp only at h0 h1 hd hdl hlen
    subst hd
    have e : encodeTag { Type_ := ty, Length := n, Data := some d } ++ rest =
        ty :: n :: (d ++ rest) := by
      simp [encodeTag, h0, h1]
    have h0' : ty ≠ 0 := h0
    have h1' : ty ≠ 1 := h1
    have e1 : ¬ (254 ≤ n.val) := by omega
    have e2 : ¬ ((d ++ rest).length < n.val) := by
      simp only [List.length_append]
      omega
    rw [e, tagLoop_succ _ _ _ _ _ ht, parseTag_long ty n (d ++ rest) h0' h1']
    simp only [e1, e2, if_false]
    have e3 : sliceFrom (ty :: n :: (d ++ rest)) (n.val + 2) = .ret rest := by
      rw [sliceFrom_of_le (by simp only [List.length_cons, List.length_append]; omega)]
      simp [← hdl]
    have e4 : List.take n.val (d ++ rest) = d := by
      simp [← hdl]
    simp [e3, e4]

theorem Tag.Wire.type_ne_end {x : Tag} (hx : x.Wire) : x.Type_ ≠ TagEnd := by
  rcases hx with rfl | ⟨_, h1, _⟩
  · simp [paddingTag, TagPadding, TagEnd]
  · exact h1

theorem lastTag_type_ne_end (ts : List Tag) : ∀ (t : Tag), t.Type_ ≠ TagEnd →
    (∀ x ∈ ts, x.Wire) → (lastTag t ts).Type_ ≠ TagEnd := by
  induction ts with
  | nil => intro t ht _; simpa [lastTag] using ht
  | cons x xs ih =>
    intro t _ hts
    simpa [lastTag] using ih x (hts x (by simp)).type_ne_end (fun y hy => hts y (by simp [hy]))

/-- The loop over a run of complete tags, all with length byte below 254: each
is appended in order, and the loop goes on with the bytes after the run. -/
theorem tagLoop_wire_run (ts : List Tag) : ∀ (k : Nat) (p : Packet) (t : Tag) (acc : List Tag)
    (rest : List Byte), p.Tags = some acc → t.Type_ ≠ TagEnd → (∀ x ∈ ts, x.Wire) →
    (∀ x ∈ ts, x.Length.val < 254) →
    tagLoop (ts.length + k) p t (encodeTags ts ++ rest) =
      tagLoop k { p with Tags := some (acc ++ ts) } (lastTag t ts) rest := by
  induction ts with
  | nil =>
    intro k p t acc rest hacc _ _ _
    obtain ⟨hd, tg, dt⟩ := p
    simp only at hacc
    simp [encodeTags, lastTag, hacc]
  | cons x xs ih =>
    intro k p t acc rest hacc ht hw hl
    have hx : x.Type_ ≠ TagEnd := (hw x (by simp)).type_ne_end
    have e : (x :: xs).length + k = (xs.length + k) + 1 := by
      simp only [List.length_cons]
      omega
    rw [e, encodeTags, List.append_assoc,
      tagLoop_wire_step _ _ _ _ _ ht (hw x (by simp)) (hl x (by simp)),
      ih k _ x (acc ++ [x]) rest (by simp [appendTag, hacc]) hx
        (fun y hy => hw y (by simp [hy])) (fun y hy => hl y (by simp [hy]))]
    simp [lastTag]

/-! ## The fuel of the loop is enough -/

/-- With at least `len(b)` units of fuel the result of the loop does not depend
on the fuel: every iteration that goes on consumes at least one byte. -/
theorem tagLoop_fuel_irrel (f1 : Nat) : ∀ (f2 : Nat) (p : Packet) (t : Tag) (b : List Byte),
    b.length ≤ f1 → b.length ≤ f2 → tagLoop f1 p t b = tagLoop f2 p t b := by
  induction f1 with
  | zero =>
    intro f2 p t b h1 _
    have hb : b = [] := List.length_eq_zero.1 (by omega)
    subst hb
    simp [tagLoop_nil]
  | succ f1 ih =>
    intro f2 p t b h1 h2
    by_cases hE : t.Type_ = TagEnd
    · simp [tagLoop_after_end _ _ _ _ hE]
    · match b, f2 with
      | [], _ => simp [tagLoop_nil]
      | x :: r, 0 => simp at h2
      | x :: r, f2 + 1 =>
        rw [tagLoop_succ _ _ _ _ _ hE, tagLoop_succ _ _ _ _ _ hE]
        match hp : parseTag (x :: r) with
        | .panic => rfl
        | .outOfFuel => rfl
        | .ret (t1, l, some e) => rfl
        | .ret (t1, l, none) =>
          obtain ⟨hl1, hl2, _, _, _⟩ := parseTag_ok hp
          simp only [ne_eq, not_true_eq_false, if_false, sliceFrom_of_le hl2]
          have hlen : ((x :: r).drop l).length = (x :: r).length - l := List.length_drop l _
          apply ih <;> omega

/-- The loop never uses up a budget of `len(b)` iterations. -/
theorem tagLoop_ne_outOfFuel (fuel : Nat) : ∀ (p : Packet) (t : Tag) (b : List Byte),
    b.length ≤ fuel → tagLoop fuel p t b ≠ .outOfFuel := by
  induction fuel with
  | zero =>
    intro p t b h
    have hb : b = [] := List.length_eq_zero.1 (by omega)
    subst hb
    rw [tagLoop_nil]
    split <;> simp
  | succ fuel ih =>
    intro p t b h
    by_cases hE : t.Type_ = TagEnd
    · simp [tagLoop_after_end _ _ _ _ hE]
    · match b with
      | [] =>
        rw [tagLoop_nil]
        split <;> simp
      | x :: r =>
        rw [tagLoop_succ _ _ _ _ _ hE]
        match hp : parseTag (x :: r) with
        | .panic => simp
        | .outOfFuel =>
          exfalso
          match r with
          | [] =>
            by_cases h0 : x = 0
            · simp [h0, parseTag_padding] at hp
            · by_cases h1 : x = 1
              · simp [h1, parseTag_end] at hp
              · simp [parseTag_single x h0 h1] at hp
          | n :: r =>
            by_cases h0 : x = 0
            · simp [h0, parseTag_padding] at hp
            · by_cases h1 : x = 1
              · simp [h1, parseTag_end] at hp
              · rw [parseTag_long x n r h0 h1] at hp
                split at hp
                · simp at hp
                · split at hp <;> simp at hp
        | .ret (t1, l, some e) => simp
        | .ret (t1, l, none) =>
          obtain ⟨hl1, hl2, _, _, _⟩ := parseTag_ok hp
          simp only [ne_eq, not_true_eq_false, if_false, sliceFrom_of_le hl2]
          have hlen : ((x :: r).drop l).length = (x :: r).length - l := List.length_drop l _
          apply ih
          omega

/-- The embedding of `Parse` is total: its loop budget is never used up, so each
call either returns or panics. -/
theorem Parse_ne_outOfFuel (b : List Byte) : Parse b ≠ .outOfFuel := by
  by_cases h : b.length < 4
  · simp [Parse_short b h]
  · obtain ⟨v, ty, hi, lo, r, rfl⟩ := exists_cons4_of_length (Nat.le_of_not_lt h)
    rw [Parse_cons]
    split
    · simp
    · split
      · simp
      · exact tagLoop_ne_outOfFuel _ _ _ _ (Nat.le_refl _)

theorem encodeTag_length_pos (t : Tag) : 1 ≤ (encodeTag t).length := by
  unfold encodeTag
  split <;> simp

theorem encodeTags_length_ge (ts : List Tag) : ts.length ≤ (encodeTags ts).length := by
  induction ts with
  | nil => simp
  | cons x xs ih =>
    have := encodeTag_length_pos x
    simp only [encodeTags, List.length_cons, List.length_append]
    omega

/-! ## The protocol field and its two bytes -/

theorem uint16_split (proto : Fin 65536) :
    uint16 (256 * (uint8 (proto.val / 256)).val + (uint8 (proto.val % 256)).val) = proto := by
  have h := proto.isLt
  apply Fin.ext
  simp only [uint16, uint8]
  omega

theorem uint8_hi (hi lo : Byte) : uint8 ((uint16 (256 * hi.val + lo.val)).val / 256) = hi := by
  have h1 := hi.isLt
  have h2 := lo.isLt
  apply Fin.ext
  simp only [uint16, uint8]
  omega

theorem uint8_lo (hi lo : Byte) : uint8 ((uint16 (256 * hi.val + lo.val)).val % 256) = lo := by
  have h1 := hi.isLt
  have h2 := lo.isLt
  apply Fin.ext
  simp only [uint16, uint8]
  omega

/-! ## The errors the loop can return -/

theorem parseTag_err {b : List Byte} {t : Tag} {l : Nat} {e : Error}
    (h : parseTag b = .ret (t, l, some e)) : e = ErrTruncatedTag := by
  match b with
  | [] => simp [parseTag_nil] at h
  | [x] =>
    by_cases h0 : x = 0
    · simp [h0, parseTag_padding] at h
    · by_cases h1 : x = 1
      · simp [h1, parseTag_end] at h
      · simp only [parseTag_single x h0 h1, Outcome.ret.injEq, Prod.mk.injEq,
          Option.some.injEq] at h
        exact h.2.2.symm
  | x :: n :: r =>
    by_cases h0 : x = 0
    · simp [h0, parseTag_padding] at h
    · by_cases h1 : x = 1
      · simp [h1, parseTag_end] at h
      · rw [parseTag_long x n r h0 h1] at h
        split at h
        · simp at h
        · split at h
          · simp only [Outcome.ret.injEq, Prod.mk.injEq, Option.some.injEq] at h
            exact h.2.2.symm
          · simp at h

/-- When the loop returns an error, it is `ErrTruncatedTag` or `ErrMissingEndTag`. -/
theorem tagLoop_err (fuel : Nat) : ∀ (p : Packet) (t : Tag) (b : List Byte) (q : Packet)
    (e : Error), tagLoop fuel p t b = .ret (q, some e) →
    e = ErrTruncatedTag ∨ e = ErrMissingEndTag := by
  induction fuel with
  | zero =>
    intro p t b q e h
    by_cases hE : t.Type_ = TagEnd
    · simp [tagLoop_after_end _ _ _ _ hE] at h
    · match b with
      | [] =>
        simp only [tagLoop_nil, hE, ne_eq, not_false_eq_true, if_true, Outcome.ret.injEq,
          Prod.mk.injEq, Option.some.injEq] at h
        exact Or.inr h.2.symm
      | x :: r => simp [tagLoop_zero_cons _ _ _ _ hE] at h
  | succ fuel ih =>
    intro p t b q e h
    by_cases hE : t.Type_ = TagEnd
    · simp [tagLoop_after_end _ _ _ _ hE] at h
    · match b with
      | [] =>
        simp only [tagLoop_nil, hE, ne_eq, not_false_eq_true, if_true, Outcome.ret.injEq,
          Prod.mk.injEq, Option.some.injEq] at h
        exact Or.inr h.2.symm
      | x :: r =>
        rw [tagLoop_succ _ _ _ _ _ hE] at h
        match hp : parseTag (x :: r) with
        | .panic => simp [hp] at h
        | .outOfFuel => simp [hp] at h
        | .ret (t1, l, some e1) =>
          simp only [hp, ne_eq, not_false_eq_true, if_true, Outcome.ret.injEq, Prod.mk.injEq,
            Option.some.injEq, reduceCtorEq] at h
          exact Or.inl (h.2 ▸ parseTag_err hp)
        | .ret (t1, l, none) =>
          obtain ⟨_, hl2, _, _, _⟩ := parseTag_ok hp
          simp only [hp, ne_eq, not_true_eq_false, if_false, sliceFrom_of_le hl2] at h
          exact ih _ _ _ _ _ h

/-! ## A successful `Parse` -/

/-- Shape of every successful parse: the buffer is a header with version 1 and
type 0, the wire form of non-`End` tags of the right shape, one `End` byte and
the trailing data; the packet holds exactly these. -/
theorem Parse_ok {b : List Byte} {p : Packet} (h : Parse b = .ret (p, none)) :
    ∃ (hi lo : Byte) (front : List Tag) (d : List Byte),
      b = 1 :: 0 :: hi :: lo :: (encodeTags (front ++ [endTag]) ++ d) ∧
      p = { Header := { Version := 1, Type_ := 0, Proto := uint16 (256 * hi.val + lo.val) },
            Tags := some (front ++ [endTag]), Data := some d } ∧
      (∀ x ∈ front, x.Shaped) ∧ (∀ x ∈ front, x.Type_ ≠ TagEnd) := by
  by_cases h4 : b.length < 4
  · simp [Parse_short b h4] at h
  · obtain ⟨v, ty, hi, lo, r, rfl⟩ := exists_cons4_of_length (Nat.le_of_not_lt h4)
    rw [Parse_cons] at h
    by_cases hv : v = 1
    · by_cases ht : ty = 0
      · subst hv ht
        simp only [ne_eq, not_true_eq_false, if_false] at h
        obtain ⟨ts, d, hq, hb, hall, hlast⟩ := tagLoop_ok _ _ _ _ [] p rfl h
        rcases hlast with ⟨hE, _⟩ | ⟨_, front, rfl, hfront⟩
        · simp [Tag.zero, TagEnd] at hE
        · exact ⟨hi, lo, front, d, by rw [hb], by simpa using hq,
            fun x hx => hall x (by simp [hx]), hfront⟩
      · simp [hv, ht] at h
    · simp [hv] at h

/-! ## Decoding a well-formed packet -/

/-- The loop on an `End` byte: the `End` tag is appended, the loop stops and the
bytes after it are the trailing data. -/
theorem tagLoop_end_step (k : Nat) (p : Packet) (t : Tag) (d : List Byte)
    (ht : t.Type_ ≠ TagEnd) :
    tagLoop (k + 1) p t (1 :: d) =
      .ret ({ p with Tags := appendTag p.Tags endTag, Data := some d }, none) := by
  rw [tagLoop_succ _ _ _ _ _ ht, parseTag_end]
  simp only [ne_eq, not_true_eq_false, if_false]
  rw [sliceFrom_of_le (by simp)]
  simp only [List.drop_succ_cons, List.drop_zero]
  rw [tagLoop_after_end _ _ _ _ rfl]
  rfl

/-- Decoding of a well-formed packet whose length-prefixed tags all have a length
byte of at most 253: `Parse` succeeds and returns the header, the tags in wire
order followed by one `End` tag, and the trailing data. -/
theorem Parse_wire_short (proto : Fin 65536) (ts : List Tag) (d : List Byte)
    (hw : ∀ x ∈ ts, x.Wire) (hl : ∀ x ∈ ts, x.Length.val < 254) :
    Parse ([1, 0, uint8 (proto.val / 256), uint8 (proto.val % 256)] ++ encodeTags ts ++
        [TagEnd] ++ d) =
      .ret ({ Header := { Version := 1, Type_ := TypeReceivedTagList, Proto := proto },
              Tags := some (ts ++ [endTag]), Data := some d }, none) := by
  have e : [1, 0, uint8 (proto.val / 256), uint8 (proto.val % 256)] ++ encodeTags ts ++
      [TagEnd] ++ d =
      1 :: 0 :: uint8 (proto.val / 256) :: uint8 (proto.val % 256) ::
        (encodeTags ts ++ 1 :: d) := by
    simp [TagEnd]
  rw [e, Parse_cons, uint16_split]
  simp only [ne_eq, not_true_eq_false, if_false]
  have hge := encodeTags_length_ge ts
  rw [tagLoop_fuel_irrel _ (ts.length + ((encodeTags ts).length + d.length + 1)) _ _ _
      (Nat.le_refl _) (by simp only [List.length_append, List.length_cons, List.length_nil]; omega),
    tagLoop_wire_run ts _ _ _ [] _ rfl (by simp [Tag.zero, TagEnd]) hw hl,
    tagLoop_end_step _ _ _ _ (lastTag_type_ne_end ts _ (by simp [Tag.zero, TagEnd]) hw)]
  simp [appendTag, TypeReceivedTagList]

/-- A buffer made of a valid header, complete tags with a length byte of at most
253 and then a length-prefixed tag whose length byte is 254 or 255 makes `Parse`
panic, whatever follows the length byte: `uint8(n + 2)` wraps to 0 or 1 and the
slice `b[2:l]` is out of range. -/
theorem Parse_long_tag_panics (hi lo : Byte) (ts : List Tag) (ty n : Byte) (r : List Byte)
    (hw : ∀ x ∈ ts, x.Wire) (hl : ∀ x ∈ ts, x.Length.val < 254)
    (h0 : ty ≠ TagPadding) (h1 : ty ≠ TagEnd) (hn : 254 ≤ n.val) :
    Parse (1 :: 0 :: hi :: lo :: (encodeTags ts ++ ty :: n :: r)) = .panic := by
  rw [Parse_cons]
  simp only [ne_eq, not_true_eq_false, if_false]
  have hge := encodeTags_length_ge ts
  rw [tagLoop_fuel_irrel _ (ts.length + ((encodeTags ts).length + r.length + 1 + 1)) _ _ _
      (Nat.le_refl _) (by simp only [List.length_append, List.length_cons, List.length_nil]; omega),
    tagLoop_wire_run ts _ _ _ [] _ rfl (by simp [Tag.zero, TagEnd]) hw hl,
    tagLoop_succ _ _ _ _ _ (lastTag_type_ne_end ts _ (by simp [Tag.zero, TagEnd]) hw),
    parseTag_long ty n r h0 h1, if_pos hn]

/-- C1, at a failing input: the packet made of a valid header, one well-formed
length-prefixed tag with 254 data bytes, the `End` byte and no trailing data
makes `Parse` panic instead of returning the decoded packet. -/
theorem Parse_wire_long_tag_panics :
    longTag.Wire ∧ Parse ([1, 0, 0, 1] ++ encodeTags [longTag] ++ [TagEnd] ++ []) = .panic := by
  refine ⟨Or.inr ⟨by decide, by decide, List.replicate 254 0, rfl, List.length_replicate _ _⟩, ?_⟩
  have e : [1, 0, 0, 1] ++ encodeTags [longTag] ++ [TagEnd] ++ [] =
      (1 : Byte) :: 0 :: 0 :: 1 ::
        (encodeTags [] ++ 0x0a :: 254 :: (List.replicate 254 0 ++ [1])) := by
    have e1 : encodeTag longTag = 0x0a :: 254 :: List.replicate 254 0 := by
      unfold encodeTag
      rw [if_neg (by decide)]
      rfl
    simp only [encodeTags, e1, TagEnd, List.append_nil, List.cons_append, List.nil_append,
      List.append_assoc]
  rw [e]
  exact Parse_long_tag_panics 0 1 [] 0x0a 254 _ (by simp) (by simp) (by decide) (by decide)
    (by decide)

/-! ## Panics -/

/-- Every call of `Parse` returns a packet with a `nil` error or one of the five
declared errors, or panics. -/
theorem Parse_returns_or_panics (b : List Byte) :
    Parse b = .panic ∨ ∃ p e, Parse b = .ret (p, e) := by
  match h : Parse b with
  | .panic => exact Or.inl rfl
  | .outOfFuel => exact absurd h (Parse_ne_outOfFuel b)
  | .ret (p, e) => exact Or.inr ⟨p, e, rfl⟩

theorem parseTag_panic {b : List Byte} (h : parseTag b = .panic) :
    b = [] ∨ ∃ ty n r, b = ty :: n :: r ∧ ty ≠ TagPadding ∧ ty ≠ TagEnd ∧ 254 ≤ n.val := by
  match b with
  | [] => exact Or.inl rfl
  | [x] =>
    by_cases h0 : x = 0
    · simp [h0, parseTag_padding] at h
    · by_cases h1 : x = 1
      · simp [h1, parseTag_end] at h
      · simp [parseTag_single x h0 h1] at h
  | x :: n :: r =>
    by_cases h0 : x = 0
    · simp [h0, parseTag_padding] at h
    · by_cases h1 : x = 1
      · simp [h1, parseTag_end] at h
      · rw [parseTag_long x n r h0 h1] at h
        by_cases hn : 254 ≤ n.val
        · exact Or.inr ⟨x, n, r, rfl, h0, h1, hn⟩
        · rw [if_neg hn] at h
          split at h <;> simp at h

theorem parseTag_ok_wire {b : List Byte} {t : Tag} {l : Nat}
    (h : parseTag b = .ret (t, l, none)) (hE : t.Type_ ≠ TagEnd) :
    t.Wire ∧ t.Length.val < 254 := by
  match b with
  | [] => simp [parseTag_nil] at h
  | x :: r =>
    by_cases h0 : x = 0
    · subst h0
      rw [parseTag_padding] at h
      simp only [Outcome.ret.injEq, Prod.mk.injEq] at h
      obtain ⟨rfl, _, _⟩ := h
      exact ⟨Or.inl rfl, by decide⟩
    · by_cases h1 : x = 1
      · subst h1
        rw [parseTag_end] at h
        simp only [Outcome.ret.injEq, Prod.mk.injEq] at h
        obtain ⟨rfl, _, _⟩ := h
        simp [TagEnd] at hE
      · match r with
        | [] => simp [parseTag_single x h0 h1] at h
        | n :: r =>
          rw [parseTag_long x n r h0 h1] at h
          by_cases h254 : 254 ≤ n.val
          · simp [h254] at h
          · by_cases hr : r.length < n.val
            · simp [h254, hr] at h
            · simp only [h254, hr, if_false, Outcome.ret.injEq, Prod.mk.injEq] at h
              obtain ⟨rfl, _, _⟩ := h
              refine ⟨Or.inr ⟨h0, h1, r.take n.val, rfl, ?_⟩, by simpa using h254⟩
              simp only [List.length_take]
              omega

/-- When the loop panics, the buffer it started from is the wire form of complete
tags with length bytes of at most 253 followed by a length-prefixed tag whose
length byte is 254 or 255. -/
theorem tagLoop_panic (fuel : Nat) : ∀ (p : Packet) (t : Tag) (b : List Byte),
    tagLoop fuel p t b = .panic →
    ∃ ts ty n r, (∀ x ∈ ts, x.Wire) ∧ (∀ x ∈ ts, x.Length.val < 254) ∧
      ty ≠ TagPadding ∧ ty ≠ TagEnd ∧ 254 ≤ n.val ∧ b = encodeTags ts ++ ty :: n :: r := by
  induction fuel with
  | zero =>
    intro p t b h
    by_cases hE : t.Type_ = TagEnd
    · simp [tagLoop_after_end _ _ _ _ hE] at h
    · match b with
      | [] =>
        rw [tagLoop_nil] at h
        split at h <;> simp at h
      | x :: r => simp [tagLoop_zero_cons _ _ _ _ hE] at h
  | succ fuel ih =>
    intro p t b h
    by_cases hE : t.Type_ = TagEnd
    · simp [tagLoop_after_end _ _ _ _ hE] at h
    · match b with
      | [] =>
        rw [tagLoop_nil] at h
        split at h <;> simp at h
      | x :: r =>
        rw [tagLoop_succ _ _ _ _ _ hE] at h
        match hp : parseTag (x :: r) with
        | .panic =>
          rcases parseTag_panic hp with hnil | ⟨ty, n, r1, hb, h0, h1, hn⟩
          · simp at hnil
          · exact ⟨[], ty, n, r1, by simp, by simp, h0, h1, hn, by simpa [encodeTags] using hb⟩
        | .outOfFuel => simp [hp] at h
        | .ret (t1, l, some e) => simp [hp] at h
        | .ret (t1, l, none) =>
          obtain ⟨_, hl2, henc, _, _⟩ := parseTag_ok hp
          simp only [hp, ne_eq, not_true_eq_false, if_false, sliceFrom_of_le hl2] at h
          have hE1 : t1.Type_ ≠ TagEnd := by
            intro hE1
            simp [tagLoop_after_end _ _ _ _ hE1] at h
          obtain ⟨hw1, hl1⟩ := parseTag_ok_wire hp hE1
          obtain ⟨ts, ty, n, r1, hw, hl, h0, h1, hn, hb⟩ := ih _ _ _ h
          refine ⟨t1 :: ts, ty, n, r1, ?_, ?_, h0, h1, hn, ?_⟩
          · intro y hy
            rcases List.mem_cons.1 hy with rfl | hy
            · exact hw1
            · exact hw y hy
          · intro y hy
            rcases List.mem_cons.1 hy with rfl | hy
            · exact hl1
            · exact hl y hy
          · rw [encodeTags, List.append_assoc, ← hb]
            exact henc

/-- The inputs on which `Parse` panics are exactly the buffers made of a valid
header, complete tags with length bytes of at most 253, and then a
length-prefixed tag whose length byte is 254 or 255. -/
theorem Parse_panics_iff (b : List Byte) :
    Parse b = .panic ↔
      ∃ hi lo ts ty n r, (∀ x ∈ ts, x.Wire) ∧ (∀ x ∈ ts, x.Length.val < 254) ∧
        ty ≠ TagPadding ∧ ty ≠ TagEnd ∧ 254 ≤ n.val ∧
        b = 1 :: 0 :: hi :: lo :: (encodeTags ts ++ ty :: n :: r) := by
  constructor
  · intro h
    by_cases h4 : b.length < 4
    · simp [Parse_short b h4] at h
    · obtain ⟨v, ty, hi, lo, r, rfl⟩ := exists_cons4_of_length (Nat.le_of_not_lt h4)
      rw [Parse_cons] at h
      by_cases hv : v = 1
      · by_cases ht : ty = 0
        · subst hv ht
          simp only [ne_eq, not_true_eq_false, if_false] at h
          obtain ⟨ts, ty, n, r1, hw, hl, h0, h1, hn, hb⟩ := tagLoop_panic _ _ _ _ h
          exact ⟨hi, lo, ts, ty, n, r1, hw, hl, h0, h1, hn, by rw [hb]⟩
        · simp [hv, ht] at h
      · simp [hv] at h
  · rintro ⟨hi, lo, ts, ty, n, r, hw, hl, h0, h1, hn, rfl⟩
    exact Parse_long_tag_panics hi lo ts ty n r hw hl h0 h1 hn

/-- C2, at a failing input: on the 6-byte buffer `01 00 00 01 0a fe` (valid
header, then a tag of type 0x0a with length byte 254) the slice expression
`b[2:l]` of `parseTag` is out of range and `Parse` panics instead of returning. -/
theorem Parse_panics_on_length_254 :
    parseTag [0x0a, 254] = .panic ∧ Parse [1, 0, 0, 1, 0x0a, 254] = .panic := by
  decide

/-! ## Truncated tags -/

/-- A buffer that ends right after the type byte of a length-prefixed tag gives
`ErrTruncatedTag`, with the tags parsed before it. -/
theorem Parse_truncated_after_type (hi lo : Byte) (ts : List Tag) (ty : Byte)
    (hw : ∀ x ∈ ts, x.Wire) (hl : ∀ x ∈ ts, x.Length.val < 254)
    (h0 : ty ≠ TagPadding) (h1 : ty ≠ TagEnd) :
    Parse (1 :: 0 :: hi :: lo :: (encodeTags ts ++ [ty])) =
      .ret ({ Header := { Version := 1, Type_ := 0, Proto := uint16 (256 * hi.val + lo.val) },
              Tags := some ts, Data := none }, some ErrTruncatedTag) := by
  rw [Parse_cons]
  simp only [ne_eq, not_true_eq_false, if_false]
  have hge := encodeTags_length_ge ts
  rw [tagLoop_fuel_irrel _ (ts.length + ((encodeTags ts).length + 1)) _ _ _
      (Nat.le_refl _) (by simp only [List.length_append, List.length_cons, List.length_nil]; omega),
    tagLoop_wire_run ts _ _ _ [] _ rfl (by simp [Tag.zero, TagEnd]) hw hl,
    tagLoop_succ _ _ _ _ _ (lastTag_type_ne_end ts _ (by simp [Tag.zero, TagEnd]) hw),
    parseTag_single ty h0 h1]
  simp

/-- A length-prefixed tag with length byte `n` of at most 253 followed by fewer
than `n` bytes gives `ErrTruncatedTag`, with the tags parsed before it. -/
theorem Parse_truncated_data (hi lo : Byte) (ts : List Tag) (ty n : Byte) (r : List Byte)
    (hw : ∀ x ∈ ts, x.Wire) (hl : ∀ x ∈ ts, x.Length.val < 254)
    (h0 : ty ≠ TagPadding) (h1 : ty ≠ TagEnd) (hn : n.val < 254) (hr : r.length < n.val) :
    Parse (1 :: 0 :: hi :: lo :: (encodeTags ts ++ ty :: n :: r)) =
      .ret ({ Header := { Version := 1, Type_ := 0, Proto := uint16 (256 * hi.val + lo.val) },
              Tags := some ts, Data := none }, some ErrTruncatedTag) := by
  rw [Parse_cons]
  simp only [ne_eq, not_true_eq_false, if_false]
  have hge := encodeTags_length_ge ts
  rw [tagLoop_fuel_irrel _ (ts.length + ((encodeTags ts).length + r.length + 1 + 1)) _ _ _
      (Nat.le_refl _) (by simp only [List.length_append, List.length_cons, List.length_nil]; omega),
    tagLoop_wire_run ts _ _ _ [] _ rfl (by simp [Tag.zero, TagEnd]) hw hl,
    tagLoop_succ _ _ _ _ _ (lastTag_type_ne_end ts _ (by simp [Tag.zero, TagEnd]) hw),
    parseTag_long ty n r h0 h1, if_neg (by omega), if_pos hr]
  simp

/-- C3, at a failing input: on `01 00 00 01 0a ff 07` (valid header, then a tag of
type 0x0a whose length byte is 255 and that has 1 data byte instead of 255)
`Parse` panics instead of returning `ErrTruncatedTag`. -/
theorem Parse_truncated_length_255_panics :
    Parse [1, 0, 0, 1, 0x0a, 255, 7] = .panic := by
  decide

/-! ## Header errors -/

/-- C4: `Parse` returns `ErrHeaderTooShort` exactly when the buffer has fewer
than 4 bytes, and the packet returned with it is the zero `Packet`. -/
theorem Parse_headerTooShort_iff (b : List Byte) (p : Packet) :
    Parse b = .ret (p, some ErrHeaderTooShort) ↔ b.length < 4 ∧ p = Packet.zero := by
  constructor
  · intro h
    by_cases h4 : b.length < 4
    · rw [Parse_short b h4] at h
      simp only [Outcome.ret.injEq, Prod.mk.injEq, and_true] at h
      exact ⟨h4, h.symm⟩
    · exfalso
      obtain ⟨v, ty, hi, lo, r, rfl⟩ := exists_cons4_of_length (Nat.le_of_not_lt h4)
      rw [Parse_cons] at h
      split at h
      · simp at h
      · split at h
        · simp at h
        · rcases tagLoop_err _ _ _ _ _ _ h with h | h <;> simp at h
  · rintro ⟨h4, rfl⟩
    exact Parse_short b h4

/-- C5: on a buffer of at least 4 bytes whose first byte is not 1, `Parse`
returns `ErrUnsupportedVersion`, whatever the type byte and the bytes after the
header are; the packet holds the header read from the first 4 bytes, and `nil`
`Tags` and `Data`. -/
theorem Parse_unsupportedVersion (b : List Byte) (h4 : 4 ≤ b.length) (hv : b.getD 0 0 ≠ 1) :
    Parse b =
      .ret ({ Header := { Version := b.getD 0 0, Type_ := b.getD 1 0,
                          Proto := uint16 (256 * (b.getD 2 0).val + (b.getD 3 0).val) },
              Tags := none, Data := none }, some ErrUnsupportedVersion) := by
  obtain ⟨v, ty, hi, lo, r, rfl⟩ := exists_cons4_of_length h4
  simp only [List.getD_cons_zero] at hv
  rw [Parse_cons]
  simp [hv]

theorem Parse_unsupportedVersion_witness :
    4 ≤ ([0, 5, 0, 1, 1, 1, 2, 3] : List Byte).length ∧
      ([0, 5, 0, 1, 1, 1, 2, 3] : List Byte).getD 0 0 ≠ 1 ∧
      Parse [0, 5, 0, 1, 1, 1, 2, 3] =
        .ret ({ Header := { Version := 0, Type_ := 5, Proto := 1 },
                Tags := none, Data := none }, some ErrUnsupportedVersion) :=
  ⟨by decide, by decide,
    Parse_unsupportedVersion [0, 5, 0, 1, 1, 1, 2, 3] (by decide) (by decide)⟩

/-- C6: on a buffer of at least 4 bytes whose first byte is 1 and whose second
byte is not 0, `Parse` returns `ErrUnsupportedPacketType`, whatever follows the
header; the packet holds the header read from the first 4 bytes, and `nil` `Tags`
and `Data`. -/
theorem Parse_unsupportedPacketType (b : List Byte) (h4 : 4 ≤ b.length)
    (hv : b.getD 0 0 = 1) (ht : b.getD 1 0 ≠ 0) :
    Parse b =
      .ret ({ Header := { Version := 1, Type_ := b.getD 1 0,
                          Proto := uint16 (256 * (b.getD 2 0).val + (b.getD 3 0).val) },
              Tags := none, Data := none }, some ErrUnsupportedPacketType) := by
  obtain ⟨v, ty, hi, lo, r, rfl⟩ := exists_cons4_of_length h4
  simp only [List.getD_cons_zero, List.getD_cons_succ] at hv ht
  rw [Parse_cons]
  simp [hv, ht]

theorem Parse_unsupportedPacketType_witness :
    4 ≤ ([1, 1, 0, 1, 1, 1, 2, 3] : List Byte).length ∧
      ([1, 1, 0, 1, 1, 1, 2, 3] : List Byte).getD 0 0 = 1 ∧
      ([1, 1, 0, 1, 1, 1, 2, 3] : List Byte).getD 1 0 ≠ 0 ∧
      Parse [1, 1, 0, 1, 1, 1, 2, 3] =
        .ret ({ Header := { Version := 1, Type_ := 1, Proto := 1 },
                Tags := none, Data := none }, some ErrUnsupportedPacketType) :=
  ⟨by decide, by decide, by decide,
    Parse_unsupportedPacketType [1, 1, 0, 1, 1, 1, 2, 3] (by decide) (by decide) (by decide)⟩

/-! ## Missing `End` tag -/

theorem encodeTags_replicate_padding (k : Nat) :
    encodeTags (List.replicate k paddingTag) = List.replicate k TagPadding := by
  induction k with
  | zero => rfl
  | succ k ih =>
    have e : encodeTag paddingTag = [TagPadding] := by simp [encodeTag, paddingTag]
    rw [List.replicate_succ, encodeTags, ih, e, List.replicate_succ]
    rfl

/-- C7: a valid header followed by exactly `k` `Padding` bytes gives
`ErrMissingEndTag` and a packet whose `Tags` are exactly `k` `Padding` tags; for
the 4-byte header alone the `Tags` list is empty and not `nil`. -/
theorem Parse_padding_only (proto : Fin 65536) :
    (∀ k : Nat,
      Parse ([1, 0, uint8 (proto.val / 256), uint8 (proto.val % 256)] ++
          List.replicate k TagPadding) =
        .ret ({ Header := { Version := 1, Type_ := TypeReceivedTagList, Proto := proto },
                Tags := some (List.replicate k paddingTag), Data := none },
              some ErrMissingEndTag)) ∧
    Parse [1, 0, uint8 (proto.val / 256), uint8 (proto.val % 256)] =
      .ret ({ Header := { Version := 1, Type_ := TypeReceivedTagList, Proto := proto },
              Tags := some [], Data := none }, some ErrMissingEndTag) := by
  have main : ∀ k : Nat,
      Parse ([1, 0, uint8 (proto.val / 256), uint8 (proto.val % 256)] ++
          List.replicate k TagPadding) =
        .ret ({ Header := { Version := 1, Type_ := TypeReceivedTagList, Proto := proto },
                Tags := some (List.replicate k paddingTag), Data := none },
              some ErrMissingEndTag) := by
    intro k
    have hw : ∀ x ∈ List.replicate k paddingTag, x.Wire := by
      intro x hx
      exact Or.inl (List.eq_of_mem_replicate hx)
    have hl : ∀ x ∈ List.replicate k paddingTag, x.Length.val < 254 := by
      intro x hx
      rw [List.eq_of_mem_replicate hx]
      decide
    have e : [1, 0, uint8 (proto.val / 256), uint8 (proto.val % 256)] ++
        List.replicate k TagPadding =
        1 :: 0 :: uint8 (proto.val / 256) :: uint8 (proto.val % 256) ::
          (encodeTags (List.replicate k paddingTag) ++ []) := by
      simp [encodeTags_replicate_padding]
    rw [e, Parse_cons, uint16_split]
    simp only [ne_eq, not_true_eq_false, if_false]
    have hge := encodeTags_length_ge (List.replicate k paddingTag)
    rw [tagLoop_fuel_irrel _ ((List.replicate k paddingTag).length +
          (encodeTags (List.replicate k paddingTag)).length) _ _ _
        (Nat.le_refl _) (by simp only [List.length_append, List.length_nil]; omega),
      tagLoop_wire_run _ _ _ _ [] _ rfl (by simp [Tag.zero, TagEnd]) hw hl, tagLoop_nil,
      if_pos (lastTag_type_ne_end _ _ (by simp [Tag.zero, TagEnd]) hw)]
    simp [TypeReceivedTagList]
  exact ⟨main, by simpa using main 0⟩

/-! ## Invariants of a decoded packet -/

/-- C8: a packet returned with a `nil` error has version 1 and type
`TypeReceivedTagList`; its tag list is not empty, its last tag is an `End` tag
and no earlier tag is, so that it holds exactly one `End` tag. -/
theorem Parse_success_invariant (b : List Byte) (p : Packet) (h : Parse b = .ret (p, none)) :
    p.Header.Version = 1 ∧ p.Header.Type_ = TypeReceivedTagList ∧
      ∃ ts, p.Tags = some ts ∧ ts ≠ [] ∧
        (∃ last, ts.getLast? = some last ∧ last.Type_ = TagEnd) ∧
        (∀ x ∈ ts.dropLast, x.Type_ ≠ TagEnd) ∧
        ts.countP (fun x => x.Type_ = TagEnd) = 1 := by
  obtain ⟨hi, lo, front, d, _, rfl, _, hfront⟩ := Parse_ok h
  refine ⟨rfl, rfl, front ++ [endTag], rfl, by simp, ⟨endTag, by simp, rfl⟩, ?_, ?_⟩
  · simpa using hfront
  · have h0 : front.countP (fun x => x.Type_ = TagEnd) = 0 := by
      rw [List.countP_eq_zero]
      intro x hx
      simpa using hfront x hx
    simp [List.countP_append, h0, endTag]

theorem Parse_success_invariant_witness :
    Parse [1, 0, 0, 1, 0x0a, 1, 2, 1, 1, 2, 3] = .ret (validPacket, none) ∧
      validPacket.Header.Version = 1 ∧ validPacket.Header.Type_ = TypeReceivedTagList ∧
      ∃ ts, validPacket.Tags = some ts ∧ ts ≠ [] ∧
        (∃ last, ts.getLast? = some last ∧ last.Type_ = TagEnd) ∧
        (∀ x ∈ ts.dropLast, x.Type_ ≠ TagEnd) ∧
        ts.countP (fun x => x.Type_ = TagEnd) = 1 :=
  ⟨by decide,
    Parse_success_invariant [1, 0, 0, 1, 0x0a, 1, 2, 1, 1, 2, 3] validPacket (by decide)⟩

/-- C9: in a packet returned with a `nil` error every tag has `Length` equal to
the number of its data bytes, and a `Padding` or `End` tag has `Length` 0 and
`nil` data. -/
theorem Parse_success_tags_shaped (b : List Byte) (p : Packet) (h : Parse b = .ret (p, none)) :
    ∀ t ∈ p.Tags.getD [],
      t.Length.val = (t.Data.getD []).length ∧
        (t.Type_ = TagPadding ∨ t.Type_ = TagEnd → t.Length = 0 ∧ t.Data = none) := by
  obtain ⟨hi, lo, front, d, _, rfl, hshape, _⟩ := Parse_ok h
  intro t ht
  simp only [Option.getD_some, List.mem_append, List.mem_singleton] at ht
  rcases ht with ht | rfl
  · exact hshape t ht
  · simp [endTag]

theorem Parse_success_tags_shaped_witness :
    Parse [1, 0, 0, 1, 0x0a, 1, 2, 0, 1, 1, 2, 3] = .ret (paddedPacket, none) ∧
      ∀ t ∈ paddedPacket.Tags.getD [],
        t.Length.val = (t.Data.getD []).length ∧
          (t.Type_ = TagPadding ∨ t.Type_ = TagEnd → t.Length = 0 ∧ t.Data = none) :=
  ⟨by decide,
    Parse_success_tags_shaped [1, 0, 0, 1, 0x0a, 1, 2, 0, 1, 1, 2, 3] paddedPacket (by decide)⟩

/-- C10: when `Parse` returns a packet `p` with a `nil` error on `b`, re-encoding
`p` gives `b` back byte for byte, and `p.Data` is the part of `b` after the
first `End` tag: `b` is the header, the wire form of tags none of which is an
`End` tag, the `End` byte and then `p.Data`. -/
theorem Parse_success_reencode (b : List Byte) (p : Packet) (h : Parse b = .ret (p, none)) :
    b = encodePacket p ∧
      ∃ front d, p.Tags = some (front ++ [endTag]) ∧ (∀ x ∈ front, x.Type_ ≠ TagEnd) ∧
        p.Data = some d ∧ b = encodeHeader p.Header ++ encodeTags front ++ TagEnd :: d := by
  obtain ⟨hi, lo, front, d, rfl, rfl, _, hfront⟩ := Parse_ok h
  have e1 : encodeTags [endTag] = [TagEnd] := by
    simp [encodeTags, encodeTag, endTag]
  refine ⟨?_, front, d, rfl, hfront, rfl, ?_⟩
  · simp [encodePacket, encodeHeader, uint8_hi, uint8_lo]
  · simp [encodeHeader, uint8_hi, uint8_lo, encodeTags_append, e1]

theorem Parse_success_reencode_witness :
    Parse [1, 0, 0, 0x12, 0, 0x3c, 2, 7, 1, 1, 1, 0, 9] = .ret (trailingEndPacket, none) ∧
      [1, 0, 0, 0x12, 0, 0x3c, 2, 7, 1, 1, 1, 0, 9] = encodePacket trailingEndPacket ∧
      ∃ front d, trailingEndPacket.Tags = some (front ++ [endTag]) ∧
        (∀ x ∈ front, x.Type_ ≠ TagEnd) ∧ trailingEndPacket.Data = some d ∧
        [1, 0, 0, 0x12, 0, 0x3c, 2, 7, 1, 1, 1, 0, 9] =
          encodeHeader trailingEndPacket.Header ++ encodeTags front ++ TagEnd :: d :=
  ⟨by decide,
    Parse_success_reencode [1, 0, 0, 0x12, 0, 0x3c, 2, 7, 1, 1, 1, 0, 9] trailingEndPacket
      (by decide)⟩

/-! ## The header of the returned packet -/

/-- The loop never touches the header of the packet. -/
theorem tagLoop_header (fuel : Nat) : ∀ (p : Packet) (t : Tag) (b : List Byte) (q : Packet)
    (e : Option Error), tagLoop fuel p t b = .ret (q, e) → q.Header = p.Header := by
  induction fuel with
  | zero =>
    intro p t b q e h
    by_cases hE : t.Type_ = TagEnd
    · simp only [tagLoop_after_end _ _ _ _ hE, Outcome.ret.injEq, Prod.mk.injEq] at h
      rw [← h.1]
    · match b with
      | [] =>
        simp only [tagLoop_nil, hE, ne_eq, not_false_eq_true, if_true, Outcome.ret.injEq,
          Prod.mk.injEq] at h
        rw [← h.1]
      | x :: r => simp [tagLoop_zero_cons _ _ _ _ hE] at h
  | succ fuel ih =>
    intro p t b q e h
    by_cases hE : t.Type_ = TagEnd
    · simp only [tagLoop_after_end _ _ _ _ hE, Outcome.ret.injEq, Prod.mk.injEq] at h
      rw [← h.1]
    · match b with
      | [] =>
        simp only [tagLoop_nil, hE, ne_eq, not_false_eq_true, if_true, Outcome.ret.injEq,
          Prod.mk.injEq] at h
        rw [← h.1]
      | x :: r =>
        rw [tagLoop_succ _ _ _ _ _ hE] at h
        match hp : parseTag (x :: r) with
        | .panic => simp [hp] at h
        | .outOfFuel => simp [hp] at h
        | .ret (t1, l, some e1) =>
          simp only [hp, ne_eq, not_false_eq_true, if_true, Outcome.ret.injEq, Prod.mk.injEq,
            reduceCtorEq] at h
          rw [← h.1]
        | .ret (t1, l, none) =>
          obtain ⟨_, hl2, _, _, _⟩ := parseTag_ok hp
          simp only [hp, ne_eq, not_true_eq_false, if_false, sliceFrom_of_le hl2] at h
          have hh := ih _ _ _ _ _ h
          exact hh

/-- C11: whenever `Parse` returns on a buffer of at least 4 bytes, with a `nil`
error or with any error, the header of the returned packet is `Version = b[0]`,
`Type = b[1]` and `Proto = 256 * b[2] + b[3]`. -/
theorem Parse_header (b : List Byte) (p : Packet) (e : Option Error) (h4 : 4 ≤ b.length)
    (h : Parse b = .ret (p, e)) :
    p.Header.Version = b.getD 0 0 ∧ p.Header.Type_ = b.getD 1 0 ∧
      p.Header.Proto.val = 256 * (b.getD 2 0).val + (b.getD 3 0).val := by
  obtain ⟨v, ty, hi, lo, r, rfl⟩ := exists_cons4_of_length h4
  simp only [List.getD_cons_zero, List.getD_cons_succ]
  rw [Parse_cons] at h
  have key : p.Header = { Version := v, Type_ := ty, Proto := uint16 (256 * hi.val + lo.val) } := by
    split at h
    · simp only [Outcome.ret.injEq, Prod.mk.injEq] at h
      rw [← h.1]
    · split at h
      · simp only [Outcome.ret.injEq, Prod.mk.injEq] at h
        rw [← h.1]
      · exact tagLoop_header _ _ _ _ _ _ h
  rw [key]
  exact ⟨rfl, rfl, uint16_bytes hi lo⟩

theorem Parse_header_witness :
    4 ≤ ([1, 0, 0x12, 0x34, 0x0a, 1] : List Byte).length ∧
      Parse [1, 0, 0x12, 0x34, 0x0a, 1] =
        .ret ({ Header := { Version := 1, Type_ := 0, Proto := 0x1234 },
                Tags := some [], Data := none }, some ErrTruncatedTag) ∧
      (1 : Byte) = ([1, 0, 0x12, 0x34, 0x0a, 1] : List Byte).getD 0 0 ∧
      (0 : Byte) = ([1, 0, 0x12, 0x34, 0x0a, 1] : List Byte).getD 1 0 ∧
      (0x1234 : Fin 65536).val =
        256 * (([1, 0, 0x12, 0x34, 0x0a, 1] : List Byte).getD 2 0).val +
          (([1, 0, 0x12, 0x34, 0x0a, 1] : List Byte).getD 3 0).val :=
  ⟨by decide, by decide,
    Parse_header [1, 0, 0x12, 0x34, 0x0a, 1]
      { Header := { Version := 1, Type_ := 0, Proto := 0x1234 }, Tags := some [], Data := none }
      (some ErrTruncatedTag) (by decide) (by decide)⟩

/-! ## Bytes after the `End` tag -/

/-- The loop on the successful path, entered before any `End` tag: the buffer is
the wire form of complete tags with length bytes of at most 253, the `End` byte
and the trailing data. -/
theorem tagLoop_ok_wire (fuel : Nat) : ∀ (p : Packet) (t : Tag) (b : List Byte)
    (acc : List Tag) (q : Packet), p.Tags = some acc → t.Type_ ≠ TagEnd →
    tagLoop fuel p t b = .ret (q, none) →
    ∃ front d, q = { Header := p.Header, Tags := some (acc ++ (front ++ [endTag])),
                     Data := some d } ∧
      b = encodeTags front ++ TagEnd :: d ∧ (∀ x ∈ front, x.Wire) ∧
      (∀ x ∈ front, x.Length.val < 254) := by
  induction fuel with
  | zero =>
    intro p t b acc q _ hE h
    match b with
    | [] => simp [tagLoop_nil, hE] at h
    | x :: r => simp [tagLoop_zero_cons _ _ _ _ hE] at h
  | succ fuel ih =>
    intro p t b acc q hacc hE h
    match b with
    | [] => simp [tagLoop_nil, hE] at h
    | x :: r =>
      rw [tagLoop_succ _ _ _ _ _ hE] at h
      match hp : parseTag (x :: r) with
      | .panic => simp [hp] at h
      | .outOfFuel => simp [hp] at h
      | .ret (t1, l, some e) => simp [hp] at h
      | .ret (t1, l, none) =>
        obtain ⟨_, hl2, henc, _, hshape⟩ := parseTag_ok hp
        simp only [hp, ne_eq, not_true_eq_false, if_false, sliceFrom_of_le hl2] at h
        by_cases hE1 : t1.Type_ = TagEnd
        · rw [tagLoop_after_end _ _ _ _ hE1] at h
          simp only [Outcome.ret.injEq, Prod.mk.injEq, and_true] at h
          have h2 := hshape.2 (Or.inr hE1)
          have ht1 : t1 = endTag := by
            obtain ⟨ty, len, dat⟩ := t1
            simp only at hE1 h2
            simp [endTag, hE1, h2.1, h2.2]
          subst ht1
          refine ⟨[], List.drop l (x :: r), ?_, ?_, by simp, by simp⟩
          · simp [← h, appendTag, hacc]
          · have e1 : encodeTag endTag = [TagEnd] := by simp [encodeTag, endTag]
            rw [e1] at henc
            simpa [encodeTags] using henc
        · obtain ⟨hw1, hl1⟩ := parseTag_ok_wire hp hE1
          obtain ⟨front, d, hq, hb, hw, hl⟩ :=
            ih _ t1 _ (acc ++ [t1]) q (by simp [appendTag, hacc]) hE1 h
          refine ⟨t1 :: front, d, by simp [hq], ?_, ?_, ?_⟩
          · rw [encodeTags, List.append_assoc, ← hb]
            exact henc
          · intro y hy
            rcases List.mem_cons.1 hy with rfl | hy
            · exact hw1
            · exact hw y hy
          · intro y hy
            rcases List.mem_cons.1 hy with rfl | hy
            · exact hl1
            · exact hl y hy

/-- Every successful parse is the parse of a well-formed packet whose tags have
length bytes of at most 253. -/
theorem Parse_ok_wire {b : List Byte} {p : Packet} (h : Parse b = .ret (p, none)) :
    ∃ (hi lo : Byte) (front : List Tag) (d : List Byte),
      b = 1 :: 0 :: hi :: lo :: (encodeTags front ++ TagEnd :: d) ∧
      p = { Header := { Version := 1, Type_ := 0, Proto := uint16 (256 * hi.val + lo.val) },
            Tags := some (front ++ [endTag]), Data := some d } ∧
      (∀ x ∈ front, x.Wire) ∧ (∀ x ∈ front, x.Length.val < 254) := by
  by_cases h4 : b.length < 4
  · simp [Parse_short b h4] at h
  · obtain ⟨v, ty, hi, lo, r, rfl⟩ := exists_cons4_of_length (Nat.le_of_not_lt h4)
    rw [Parse_cons] at h
    by_cases hv : v = 1
    · by_cases ht : ty = 0
      · subst hv ht
        simp only [ne_eq, not_true_eq_false, if_false] at h
        obtain ⟨front, d, hq, hb, hw, hl⟩ :=
          tagLoop_ok_wire _ _ _ _ [] p rfl (by simp [Tag.zero, TagEnd]) h
        exact ⟨hi, lo, front, d, by rw [hb], by simpa using hq, hw, hl⟩
      · simp [hv, ht] at h
    · simp [hv] at h

/-- Decoding of a well-formed packet, with the header given by its bytes. -/
theorem Parse_wire_bytes (hi lo : Byte) (ts : List Tag) (d : List Byte)
    (hw : ∀ x ∈ ts, x.Wire) (hl : ∀ x ∈ ts, x.Length.val < 254) :
    Parse (1 :: 0 :: hi :: lo :: (encodeTags ts ++ TagEnd :: d)) =
      .ret ({ Header := { Version := 1, Type_ := 0, Proto := uint16 (256 * hi.val + lo.val) },
              Tags := some (ts ++ [endTag]), Data := some d }, none) := by
  have h := Parse_wire_short (uint16 (256 * hi.val + lo.val)) ts d hw hl
  rw [uint8_hi, uint8_lo] at h
  simpa [TypeReceivedTagList] using h

/-- C12: when `Parse` succeeds on `b` with packet `p`, it succeeds on `b ++ e`
for every `e`, with the header and the tags of `p` and with `Data = p.Data ++ e`:
the bytes after the first `End` tag are never read as tags. -/
theorem Parse_append (b e : List Byte) (p : Packet) (h : Parse b = .ret (p, none)) :
    Parse (b ++ e) =
      .ret ({ Header := p.Header, Tags := p.Tags, Data := some (p.Data.getD [] ++ e) }, none) := by
  obtain ⟨hi, lo, front, d, rfl, rfl, hw, hl⟩ := Parse_ok_wire h
  have e1 : 1 :: 0 :: hi :: lo :: (encodeTags front ++ TagEnd :: d) ++ e =
      1 :: 0 :: hi :: lo :: (encodeTags front ++ TagEnd :: (d ++ e)) := by
    simp
  rw [e1, Parse_wire_bytes hi lo front (d ++ e) hw hl]
  rfl

theorem Parse_append_witness :
    Parse [1, 0, 0, 1, 0x0a, 1, 2, 1, 1, 2, 3] = .ret (validPacket, none) ∧
      Parse ([1, 0, 0, 1, 0x0a, 1, 2, 1, 1, 2, 3] ++ [1, 0x0a, 255, 0, 1]) =
        .ret ({ Header := validPacket.Header, Tags := validPacket.Tags,
                Data := some (validPacket.Data.getD [] ++ [1, 0x0a, 255, 0, 1]) }, none) :=
  ⟨by decide,
    Parse_append [1, 0, 0, 1, 0x0a, 1, 2, 1, 1, 2, 3] [1, 0x0a, 255, 0, 1] validPacket
      (by decide)⟩

/-! ## The tag type beyond `Padding` and `End` -/

/-- C13: on a non-empty buffer whose first byte `ty` is neither `Padding` nor
`End`, replacing that byte by any other `ty1` that is neither `Padding` nor `End`
changes nothing in what `parseTag` does but the `Type` of the returned tag, which
is the first byte: same panic or return, same error, same consumed length, same
`Length`, same `Data`. -/
theorem parseTag_type_irrelevant (ty ty1 : Byte) (r : List Byte)
    (h0 : ty ≠ TagPadding) (h1 : ty ≠ TagEnd) (h0' : ty1 ≠ TagPadding) (h1' : ty1 ≠ TagEnd) :
    parseTag (ty1 :: r) = retype ty1 (parseTag (ty :: r)) ∧
      ∀ t l e, parseTag (ty :: r) = .ret (t, l, e) → t.Type_ = ty := by
  match r with
  | [] =>
    rw [parseTag_single ty h0 h1, parseTag_single ty1 h0' h1']
    refine ⟨rfl, ?_⟩
    intro t l e h
    simp only [Outcome.ret.injEq, Prod.mk.injEq] at h
    rw [← h.1]
  | n :: r =>
    rw [parseTag_long ty n r h0 h1, parseTag_long ty1 n r h0' h1']
    by_cases hn : 254 ≤ n.val
    · simp only [hn, if_true]
      exact ⟨rfl, by intro t l e h; simp at h⟩
    · by_cases hr : r.length < n.val
      · simp only [hn, hr, if_true, if_false]
        refine ⟨rfl, ?_⟩
        intro t l e h
        simp only [Outcome.ret.injEq, Prod.mk.injEq] at h
        rw [← h.1]
      · simp only [hn, hr, if_false]
        refine ⟨rfl, ?_⟩
        intro t l e h
        simp only [Outcome.ret.injEq, Prod.mk.injEq] at h
        rw [← h.1]

theorem parseTag_type_irrelevant_witness :
    (0x0a : Byte) ≠ TagPadding ∧ (0x0a : Byte) ≠ TagEnd ∧ (0xee : Byte) ≠ TagPadding ∧
      (0xee : Byte) ≠ TagEnd ∧
      (parseTag (0xee :: [2, 7, 8, 9]) = retype 0xee (parseTag (0x0a :: [2, 7, 8, 9])) ∧
        ∀ t l e, parseTag (0x0a :: [2, 7, 8, 9]) = .ret (t, l, e) → t.Type_ = 0x0a) ∧
      parseTag (0xee :: [2, 7, 8, 9]) =
        .ret ({ Type_ := 0xee, Length := 2, Data := some [7, 8] }, 4, none) :=
  ⟨by decide, by decide, by decide, by decide,
    parseTag_type_irrelevant 0x0a 0xee [2, 7, 8, 9] (by decide) (by decide) (by decide)
      (by decide), by decide⟩

/-! ## Names of the tag types -/

theorem TagType.String_fallback (v : Byte) (h : v.val ∉ knownTagValues) :
    TagType.String v = .ret ("TagType(" ++ Nat.repr v.val ++ ")") := by
  obtain ⟨n, hn⟩ := v
  simp only [knownTagValues, List.mem_cons, List.mem_singleton, List.mem_nil_iff,
    not_or, or_false] at h
  have e1 : ¬ (0 ≤ n ∧ n ≤ 1) := by omega
  have e2 : ¬ (10 ≤ n ∧ n ≤ 13) := by omega
  have e3 : ¬ (15 ≤ n ∧ n ≤ 18) := by omega
  have e4 : ¬ (40 ≤ n ∧ n ≤ 41) := by omega
  have e5 : ¬ (n = 60) := by omega
  simp only [TagType.String, e1, e2, e3, e4, e5, if_false, sprintfTagType]

set_option maxRecDepth 100000 in
theorem TagType.String_refines : ∀ v : Byte, TagType.String v = .ret (specTagTypeName v) := by
  decide

/-- C14: `TagType.String` never panics and returns, for every value `v` in
0..255, the name the specification gives: the symbolic name for each of the 13
known values and `TagType(v)` with `v` in decimal for every other value,
0x0e included. -/
theorem TagType_String_names :
    (∀ v : Byte, TagType.String v = .ret (specTagTypeName v)) ∧
    (∀ v : Byte, v.val ∉ knownTagValues →
      TagType.String v = .ret ("TagType(" ++ Nat.repr v.val ++ ")")) ∧
    (TagType.String 0x00 = .ret "TagPadding" ∧ TagType.String 0x01 = .ret "TagEnd" ∧
      TagType.String 0x0a = .ret "TagRawRSSI" ∧ TagType.String 0x0b = .ret "TagSNR" ∧
      TagType.String 0x0c = .ret "TagDataRate" ∧ TagType.String 0x0d = .ret "TagTimestamp" ∧
      TagType.String 0x0f = .ret "TagContentionFree" ∧
      TagType.String 0x10 = .ret "TagDecrypted" ∧ TagType.String 0x11 = .ret "TagFCSError" ∧
      TagType.String 0x12 = .ret "TagRXChannel" ∧ TagType.String 0x28 = .ret "TagPacketCount" ∧
      TagType.String 0x29 = .ret "TagRXFrameLength" ∧
      TagType.String 0x3c = .ret "TagWLANRadioHDRSerial") ∧
    TagType.String 0x0e = .ret "TagType(14)" ∧ TagType.String 0xff = .ret "TagType(255)" := by
  refine ⟨TagType.String_refines, TagType.String_fallback, ?_, ?_, ?_⟩ <;> decide

theorem TagType_String_names_witness :
    (0x0e : Byte).val ∉ knownTagValues ∧
      TagType.String 0x0e = .ret ("TagType(" ++ Nat.repr (0x0e : Byte).val ++ ")") ∧
      "TagType(" ++ Nat.repr (0x0e : Byte).val ++ ")" = "TagType(14)" :=
  ⟨by decide, TagType_String_names.2.1 0x0e (by decide), by decide⟩

/-! ## The packet returned with `ErrTruncatedTag` or `ErrMissingEndTag` -/

/-- When `parseTag` returns an error, the buffer starts with a type byte that is
neither `Padding` nor `End`, and either ends there or goes on with a length byte
`n` of at most 253 and fewer than `n` bytes. -/
theorem parseTag_err_shape {b : List Byte} {t : Tag} {l : Nat} {e : Error}
    (h : parseTag b = .ret (t, l, some e)) :
    ∃ ty rest, b = ty :: rest ∧ ty ≠ TagPadding ∧ ty ≠ TagEnd ∧
      (rest = [] ∨ ∃ n r, rest = n :: r ∧ n.val < 254 ∧ r.length < n.val) := by
  match b with
  | [] => simp [parseTag_nil] at h
  | [x] =>
    by_cases h0 : x = 0
    · simp [h0, parseTag_padding] at h
    · by_cases h1 : x = 1
      · simp [h1, parseTag_end] at h
      · exact ⟨x, [], rfl, h0, h1, Or.inl rfl⟩
  | x :: n :: r =>
    by_cases h0 : x = 0
    · simp [h0, parseTag_padding] at h
    · by_cases h1 : x = 1
      · simp [h1, parseTag_end] at h
      · rw [parseTag_long x n r h0 h1] at h
        by_cases hn : 254 ≤ n.val
        · simp [hn] at h
        · by_cases hr : r.length < n.val
          · exact ⟨x, n :: r, rfl, h0, h1, Or.inr ⟨n, r, rfl, by omega, hr⟩⟩
          · simp [hn, hr] at h

/-- The loop when it returns an error: the packet keeps its header and its `nil`
`Data`, the newly appended tags are complete tags none of which is an `End` tag,
and the buffer is their wire form, followed by nothing for `ErrMissingEndTag`
and by the truncated tag for `ErrTruncatedTag`. -/
theorem tagLoop_err_shape (fuel : Nat) : ∀ (p : Packet) (t : Tag) (b : List Byte)
    (acc : List Tag) (q : Packet) (e : Error), p.Tags = some acc → p.Data = none →
    tagLoop fuel p t b = .ret (q, some e) →
    ∃ ts, q = { Header := p.Header, Tags := some (acc ++ ts), Data := none } ∧
      (∀ x ∈ ts, x.Wire) ∧ (∀ x ∈ ts, x.Length.val < 254) ∧
      ((e = ErrMissingEndTag ∧ b = encodeTags ts) ∨
        (e = ErrTruncatedTag ∧ ∃ ty rest, ty ≠ TagPadding ∧ ty ≠ TagEnd ∧
          b = encodeTags ts ++ ty :: rest ∧
          (rest = [] ∨ ∃ n r, rest = n :: r ∧ n.val < 254 ∧ r.length < n.val))) := by
  induction fuel with
  | zero =>
    intro p t b acc q e hacc hdat h
    by_cases hE : t.Type_ = TagEnd
    · simp [tagLoop_after_end _ _ _ _ hE] at h
    · match b with
      | [] =>
        simp only [tagLoop_nil, hE, ne_eq, not_false_eq_true, if_true, Outcome.ret.injEq,
          Prod.mk.injEq, Option.some.injEq] at h
        obtain ⟨hd, tg, dt⟩ := p
        simp only at hacc hdat
        exact ⟨[], by simp [← h.1, hacc, hdat], by simp, by simp,
          Or.inl ⟨h.2.symm, rfl⟩⟩
      | x :: r => simp [tagLoop_zero_cons _ _ _ _ hE] at h
  | succ fuel ih =>
    intro p t b acc q e hacc hdat h
    by_cases hE : t.Type_ = TagEnd
    · simp [tagLoop_after_end _ _ _ _ hE] at h
    · match b with
      | [] =>
        simp only [tagLoop_nil, hE, ne_eq, not_false_eq_true, if_true, Outcome.ret.injEq,
          Prod.mk.injEq, Option.some.injEq] at h
        obtain ⟨hd, tg, dt⟩ := p
        simp only at hacc hdat
        exact ⟨[], by simp [← h.1, hacc, hdat], by simp, by simp,
          Or.inl ⟨h.2.symm, rfl⟩⟩
      | x :: r =>
        rw [tagLoop_succ _ _ _ _ _ hE] at h
        match hp : parseTag (x :: r) with
        | .panic => simp [hp] at h
        | .outOfFuel => simp [hp] at h
        | .ret (t1, l, some e1) =>
          simp only [hp, ne_eq, not_false_eq_true, if_true, Outcome.ret.injEq, Prod.mk.injEq,
            Option.some.injEq, reduceCtorEq] at h
          obtain ⟨ty, rest, hb, h0, h1, hrest⟩ := parseTag_err_shape hp
          have he : e = ErrTruncatedTag := h.2 ▸ parseTag_err hp
          obtain ⟨hd, tg, dt⟩ := p
          simp only at hacc hdat
          exact ⟨[], by simp [← h.1, hacc, hdat], by simp, by simp,
            Or.inr ⟨he, ty, rest, h0, h1, by simpa [encodeTags] using hb, hrest⟩⟩
        | .ret (t1, l, none) =>
          obtain ⟨_, hl2, henc, _, _⟩ := parseTag_ok hp
          simp only [hp, ne_eq, not_true_eq_false, if_false, sliceFrom_of_le hl2] at h
          have hE1 : t1.Type_ ≠ TagEnd := by
            intro hE1
            simp [tagLoop_after_end _ _ _ _ hE1] at h
          obtain ⟨hw1, hl1⟩ := parseTag_ok_wire hp hE1
          obtain ⟨ts, hq, hw, hl, hcase⟩ :=
            ih { p with Tags := appendTag p.Tags t1 } t1 _ (acc ++ [t1]) q e
              (by simp [appendTag, hacc]) hdat h
          refine ⟨t1 :: ts, by simp [hq], ?_, ?_, ?_⟩
          · intro y hy
            rcases List.mem_cons.1 hy with rfl | hy
            · exact hw1
            · exact hw y hy
          · intro y hy
            rcases List.mem_cons.1 hy with rfl | hy
            · exact hl1
            · exact hl y hy
          · rcases hcase with ⟨he, hb⟩ | ⟨he, ty, rest, h0, h1, hb, hrest⟩
            · refine Or.inl ⟨he, ?_⟩
              rw [encodeTags, ← hb]
              exact henc
            · refine Or.inr ⟨he, ty, rest, h0, h1, ?_, hrest⟩
              rw [encodeTags, List.append_assoc, ← hb]
              exact henc

/-- An error of the loop comes with a packet of this shape: header of a valid
packet, complete tags before the failure, `nil` data. -/
theorem Parse_loop_error {b : List Byte} {p : Packet} {e : Error}
    (h : Parse b = .ret (p, some e)) (he : e = ErrTruncatedTag ∨ e = ErrMissingEndTag) :
    ∃ (hi lo : Byte) (ts : List Tag) (r : List Byte), b = 1 :: 0 :: hi :: lo :: r ∧
      p = { Header := { Version := 1, Type_ := 0, Proto := uint16 (256 * hi.val + lo.val) },
            Tags := some ts, Data := none } ∧
      (∀ x ∈ ts, x.Wire) ∧ (∀ x ∈ ts, x.Length.val < 254) ∧
      ((e = ErrMissingEndTag ∧ r = encodeTags ts) ∨
        (e = ErrTruncatedTag ∧ ∃ ty rest, ty ≠ TagPadding ∧ ty ≠ TagEnd ∧
          r = encodeTags ts ++ ty :: rest ∧
          (rest = [] ∨ ∃ n r1, rest = n :: r1 ∧ n.val < 254 ∧ r1.length < n.val))) := by
  by_cases h4 : b.length < 4
  · rw [Parse_short b h4] at h
    simp only [Outcome.ret.injEq, Prod.mk.injEq, Option.some.injEq] at h
    rcases he with he | he <;> simp [he] at h
  · obtain ⟨v, ty, hi, lo, r, rfl⟩ := exists_cons4_of_length (Nat.le_of_not_lt h4)
    rw [Parse_cons] at h
    by_cases hv : v = 1
    · by_cases ht : ty = 0
      · subst hv ht
        simp only [ne_eq, not_true_eq_false, if_false] at h
        obtain ⟨ts, hq, hw, hl, hcase⟩ := tagLoop_err_shape _ _ _ _ [] p e rfl rfl h
        exact ⟨hi, lo, ts, r, rfl, by simpa using hq, hw, hl, hcase⟩
      · simp only [hv, ht, ne_eq, not_true_eq_false, not_false_eq_true, if_true, if_false,
          Outcome.ret.injEq, Prod.mk.injEq, Option.some.injEq] at h
        rcases he with he | he <;> simp [he] at h
    · simp only [hv, ne_eq, not_false_eq_true, if_true, Outcome.ret.injEq, Prod.mk.injEq,
        Option.some.injEq] at h
      rcases he with he | he <;> simp [he] at h

/-- C15: when `Parse` returns `ErrTruncatedTag` or `ErrMissingEndTag` on `b`, the
packet returned with the error has `nil` `Data` and a non-`nil` `Tags` list of
complete tags, none of type `End`, whose wire form after the header is the start
of `b`: all of `b` for `ErrMissingEndTag`, and for `ErrTruncatedTag` the part of
`b` before the truncated tag, which starts with a type byte other than 0x00 and
0x01 and is not in `Tags`. -/
theorem Parse_error_packet (b : List Byte) (p : Packet) (e : Error)
    (h : Parse b = .ret (p, some e)) (he : e = ErrTruncatedTag ∨ e = ErrMissingEndTag) :
    p.Data = none ∧
      ∃ ts, p.Tags = some ts ∧ (∀ x ∈ ts, x.Wire ∧ x.Type_ ≠ TagEnd) ∧
        (e = ErrMissingEndTag → b = encodeHeader p.Header ++ encodeTags ts) ∧
        (e = ErrTruncatedTag → ∃ ty rest, ty ≠ TagPadding ∧ ty ≠ TagEnd ∧
          b = encodeHeader p.Header ++ encodeTags ts ++ ty :: rest ∧
          (rest = [] ∨ ∃ n r, rest = n :: r ∧ r.length < n.val)) := by
  obtain ⟨hi, lo, ts, r, rfl, rfl, hw, _, hcase⟩ := Parse_loop_error h he
  refine ⟨rfl, ts, rfl, fun x hx => ⟨hw x hx, (hw x hx).type_ne_end⟩, ?_, ?_⟩
  · intro hm
    rcases hcase with ⟨_, hr⟩ | ⟨ht, _⟩
    · simp [encodeHeader, uint8_hi, uint8_lo, hr]
    · simp [hm] at ht
  · intro ht
    rcases hcase with ⟨hm, _⟩ | ⟨_, ty, rest, h0, h1, hr, hrest⟩
    · simp [ht] at hm
    · refine ⟨ty, rest, h0, h1, by simp [encodeHeader, uint8_hi, uint8_lo, hr], ?_⟩
      rcases hrest with hnil | ⟨n, r1, hn, _, hlt⟩
      · exact Or.inl hnil
      · exact Or.inr ⟨n, r1, hn, hlt⟩

theorem Parse_error_packet_witness :
    Parse [1, 0, 0, 1, 0, 0x0a, 1, 2, 0x0b, 3, 9] =
        .ret (truncatedPacket, some ErrTruncatedTag) ∧
      (ErrTruncatedTag = ErrTruncatedTag ∨ ErrTruncatedTag = ErrMissingEndTag) ∧
      truncatedPacket.Data = none ∧
      ∃ ts, truncatedPacket.Tags = some ts ∧ (∀ x ∈ ts, x.Wire ∧ x.Type_ ≠ TagEnd) ∧
        (ErrTruncatedTag = ErrMissingEndTag →
          [1, 0, 0, 1, 0, 0x0a, 1, 2, 0x0b, 3, 9] =
            encodeHeader truncatedPacket.Header ++ encodeTags ts) ∧
        (ErrTruncatedTag = ErrTruncatedTag → ∃ ty rest, ty ≠ TagPadding ∧ ty ≠ TagEnd ∧
          [1, 0, 0, 1, 0, 0x0a, 1, 2, 0x0b, 3, 9] =
            encodeHeader truncatedPacket.Header ++ encodeTags ts ++ ty :: rest ∧
          (rest = [] ∨ ∃ n r, rest = n :: r ∧ r.length < n.val)) :=
  ⟨by decide, Or.inl rfl,
    Parse_error_packet [1, 0, 0, 1, 0, 0x0a, 1, 2, 0x0b, 3, 9] truncatedPacket ErrTruncatedTag
      (by decide) (Or.inl rfl)⟩

/-! ## The consumed length of a complete length-prefixed tag -/

/-- On a complete length-prefixed tag with length byte `n` of at most 253,
`parseTag` returns the tag, the consumed length `2 + n` and no error. -/
theorem parseTag_complete (ty n : Byte) (r : List Byte) (h0 : ty ≠ TagPadding)
    (h1 : ty ≠ TagEnd) (hn : n.val < 254) (hr : n.val ≤ r.length) :
    parseTag (ty :: n :: r) =
      .ret ({ Type_ := ty, Length := n, Data := some (r.take n.val) }, 2 + n.val, none) := by
  rw [parseTag_long ty n r h0 h1, if_neg (by omega), if_neg (by omega), Nat.add_comm]

/-- On a length-prefixed tag with length byte 254 or 255, `parseTag` panics,
however many bytes follow. -/
theorem parseTag_wraps (ty n : Byte) (r : List Byte) (h0 : ty ≠ TagPadding)
    (h1 : ty ≠ TagEnd) (hn : 254 ≤ n.val) : parseTag (ty :: n :: r) = .panic := by
  rw [parseTag_long ty n r h0 h1, if_pos hn]

/-- C16, at a failing input: on the 257-byte buffer `0a ff` followed by 255 zero
bytes, which holds the whole tag (`len(b) = 2 + 255`), `parseTag` panics instead
of returning the tag with consumed length 257. -/
theorem parseTag_length_255_panics :
    2 + (255 : Byte).val ≤ ((0x0a : Byte) :: 255 :: List.replicate 255 0).length ∧
      parseTag (0x0a :: 255 :: List.replicate 255 0) = .panic :=
  ⟨by simp only [List.length_cons, List.length_replicate]; decide,
    parseTag_wraps 0x0a 255 _ (by decide) (by decide) (by decide)⟩

/-! ## Padding before `End` -/

/-- C17: a valid header followed by `k` `Padding` bytes, one `End` byte and the
bytes `d` is decoded without error into `k` `Padding` tags followed by one `End`
tag, `k + 1` tags in all, each with `Length` 0 and `nil` `Data`, and `Data = d`. -/
theorem Parse_padding_then_end (proto : Fin 65536) (k : Nat) (d : List Byte) :
    Parse ([1, 0, uint8 (proto.val / 256), uint8 (proto.val % 256)] ++
        List.replicate k TagPadding ++ [TagEnd] ++ d) =
      .ret ({ Header := { Version := 1, Type_ := TypeReceivedTagList, Proto := proto },
              Tags := some (List.replicate k paddingTag ++ [endTag]), Data := some d }, none) ∧
    (List.replicate k paddingTag ++ [endTag]).length = k + 1 ∧
    ∀ t ∈ List.replicate k paddingTag ++ [endTag], t.Length = 0 ∧ t.Data = none := by
  refine ⟨?_, by simp, ?_⟩
  · have hw : ∀ x ∈ List.replicate k paddingTag, x.Wire := by
      intro x hx
      exact Or.inl (List.eq_of_mem_replicate hx)
    have hl : ∀ x ∈ List.replicate k paddingTag, x.Length.val < 254 := by
      intro x hx
      rw [List.eq_of_mem_replicate hx]
      decide
    have h := Parse_wire_short proto (List.replicate k paddingTag) d hw hl
    rw [encodeTags_replicate_padding] at h
    exact h
  · intro t ht
    rcases List.mem_append.1 ht with ht | ht
    · rw [List.eq_of_mem_replicate ht]
      exact ⟨rfl, rfl⟩
    · rw [List.mem_singleton.1 ht]
      exact ⟨rfl, rfl⟩

/-! ## Progress of the tag loop -/

/-- Each returned tag stands for at least one byte after the header: on a buffer
of at least 4 bytes the number of returned tags plus 4 is at most the length of
the buffer, and on a shorter buffer `Tags` is `nil`. -/
theorem Parse_tag_count {b : List Byte} {p : Packet} {e : Option Error}
    (h : Parse b = .ret (p, e)) :
    (4 ≤ b.length → (p.Tags.getD []).length + 4 ≤ b.length) ∧
      (b.length < 4 → p.Tags = none) := by
  by_cases h4 : b.length < 4
  · rw [Parse_short b h4] at h
    simp only [Outcome.ret.injEq, Prod.mk.injEq] at h
    refine ⟨fun h' => absurd h4 (by omega), fun _ => ?_⟩
    rw [← h.1]
    rfl
  · refine ⟨fun _ => ?_, fun h' => absurd h' h4⟩
    obtain ⟨v, ty, hi, lo, r, rfl⟩ := exists_cons4_of_length (Nat.le_of_not_lt h4)
    rw [Parse_cons] at h
    by_cases hv : v = 1
    · by_cases ht : ty = 0
      · subst hv ht
        simp only [ne_eq, not_true_eq_false, if_false] at h
        match e with
        | none =>
          obtain ⟨front, d, hq, hb, _, _⟩ :=
            tagLoop_ok_wire _ _ _ _ [] p rfl (by simp [Tag.zero, TagEnd]) h
          have hge := encodeTags_length_ge front
          rw [hq, hb]
          simp only [Option.getD_some, List.nil_append, List.length_append, List.length_cons,
            List.length_nil]
          omega
        | some e =>
          obtain ⟨ts, hq, _, _, hcase⟩ := tagLoop_err_shape _ _ _ _ [] p e rfl rfl h
          have hge := encodeTags_length_ge ts
          rw [hq]
          rcases hcase with ⟨_, hb⟩ | ⟨_, ty, rest, _, _, hb, _⟩
          · rw [hb]
            simp only [Option.getD_some, List.nil_append, List.length_cons]
            omega
          · rw [hb]
            simp only [Option.getD_some, List.nil_append, List.length_append, List.length_cons]
            omega
      · simp only [hv, ht, ne_eq, not_true_eq_false, not_false_eq_true, if_true, if_false,
          Outcome.ret.injEq, Prod.mk.injEq] at h
        rw [← h.1]
        simp
    · simp only [hv, ne_eq, not_false_eq_true, if_true, Outcome.ret.injEq, Prod.mk.injEq] at h
      rw [← h.1]
      simp

/-- C18, as stated, fails on a buffer shorter than the header: on `01 00 00`
`Parse` returns (with `ErrHeaderTooShort`) a packet with no tags, and 0 is not at
most `len(input) - 4 = -1`. -/
theorem Parse_tag_count_short_buffer :
    Parse [1, 0, 0] = .ret (Packet.zero, some ErrHeaderTooShort) ∧
      ¬ (((Packet.zero.Tags.getD []).length : Int) ≤
          (([1, 0, 0] : List Byte).length : Int) - 4) := by
  decide

/-- C18, amended: a `parseTag` call on a non-empty buffer that returns without
error consumes at least 1 and at most `len(b)` bytes, so the slice `b[l:]` is in
range and strictly shorter than `b`; the loop of `Parse` ends within its budget
of one iteration for each byte after the header, on every input; and whenever
`Parse` returns on a buffer of at least 4 bytes the number of tags of the
returned packet is at most `len(input) - 4`, while on a shorter buffer the
returned packet has no tags. -/
theorem Parse_progress (b : List Byte) :
    (∀ t l, b ≠ [] → parseTag b = .ret (t, l, none) →
      1 ≤ l ∧ l ≤ b.length ∧ sliceFrom b l = .ret (b.drop l) ∧
        (b.drop l).length < b.length) ∧
    Parse b ≠ .outOfFuel ∧
    (∀ p e, Parse b = .ret (p, e) →
      (4 ≤ b.length → ((p.Tags.getD []).length : Int) ≤ (b.length : Int) - 4) ∧
        (b.length < 4 → p.Tags = none)) := by
  refine ⟨?_, Parse_ne_outOfFuel b, ?_⟩
  · intro t l _ h
    obtain ⟨h1, h2, _, _, _⟩ := parseTag_ok h
    refine ⟨h1, h2, sliceFrom_of_le h2, ?_⟩
    rw [List.length_drop]
    omega
  · intro p e h
    obtain ⟨hlong, hshort⟩ := Parse_tag_count h
    refine ⟨fun h4 => ?_, hshort⟩
    have := hlong h4
    omega

theorem Parse_progress_witness :
    ([0x0a, 1, 2, 1] : List Byte) ≠ [] ∧
      parseTag [0x0a, 1, 2, 1] =
        .ret ({ Type_ := 0x0a, Length := 1, Data := some [2] }, 3, none) ∧
      (1 ≤ 3 ∧ 3 ≤ ([0x0a, 1, 2, 1] : List Byte).length ∧
        sliceFrom [0x0a, 1, 2, 1] 3 = .ret (([0x0a, 1, 2, 1] : List Byte).drop 3) ∧
        (([0x0a, 1, 2, 1] : List Byte).drop 3).length <
          ([0x0a, 1, 2, 1] : List Byte).length) ∧
      Parse [1, 0, 0, 1, 0x0a, 1, 2, 1, 1, 2, 3] = .ret (validPacket, none) ∧
      4 ≤ ([1, 0, 0, 1, 0x0a, 1, 2, 1, 1, 2, 3] : List Byte).length ∧
      ((validPacket.Tags.getD []).length : Int) ≤
        (([1, 0, 0, 1, 0x0a, 1, 2, 1, 1, 2, 3] : List Byte).length : Int) - 4 :=
  ⟨by decide, by decide,
    (Parse_progress [0x0a, 1, 2, 1]).1 { Type_ := 0x0a, Length := 1, Data := some [2] } 3
      (by decide) (by decide), by decide, by decide,
    ((Parse_progress [1, 0, 0, 1, 0x0a, 1, 2, 1, 1, 2, 3]).2.2 validPacket none
      (by decide)).1 (by decide)⟩

end Tzsp
